import Mathlib

/-!
A shallow embedding of the `picostruct` schema validator (src/index.ts).

JavaScript values are modelled with an explicit heap: objects and arrays are
references (`Nat` ids) into a `Heap`, since the library mutates its inputs in
place and several spec claims are about reference identity and in-place
mutation.  Primitive values are immediate.

Validation (`validate` and every combinator validator) is modelled as a state
transformer `SchemaV → JSVal → Heap → Heap × VResult`: a JS function that
either returns a value (`.ok`), throws a `ValidationError` (`.verr`, carrying
the structured `ErrorInfo`), or throws some other exception (`.oerr`, carrying
an opaque tag).  The heap is threaded through even on failure, because the
library does not undo partial mutation when validation fails.
-/

set_option maxHeartbeats 1000000

/-- A path segment of a validation error: the TS type `string | number`.
`for ... in` loops produce string keys (also for the numeric indices of an
array-shaped schema), while the `array` combinator uses numeric indices. -/
inductive PathSeg where
  | str (s : String)
  | idx (n : Nat)
deriving DecidableEq, Repr

/-- JS primitive values (the `Primitive` type of the source, minus `bigint`
and `symbol`, which no part of the library nor the claims exercises).
Finite numbers are rationals; `nan` and the infinities are separate so that
`Number.isFinite` / `Number.isInteger` are modelled exactly. -/
inductive Prim where
  | str (s : String)
  | num (q : ℚ)
  | nan
  | inf (neg : Bool)
  | bool (b : Bool)
  | null
  | undef
deriving DecidableEq, Repr

/-- A JS value: a primitive, or a reference to an object / array in the heap. -/
inductive JSVal where
  | prim (p : Prim)
  | obj (id : Nat)
  | arr (id : Nat)
deriving DecidableEq, Repr

/-- The error info of a `ValidationError`: the TS `ErrorInfo`
(`ErrorDescription & { path }`), with the `path` stored in every variant. -/
inductive ErrorInfo where
  | expected (path : List PathSeg) (expct : String)
  | union (path : List PathSeg) (failures : List ErrorInfo)
  | key (path : List PathSeg) (error : ErrorInfo)
  | custom (path : List PathSeg) (message : String)
  | unexpected (path : List PathSeg)
deriving Repr

/-- The path component of an `ErrorInfo`. -/
def ErrorInfo.path : ErrorInfo → List PathSeg
  | .expected p _ => p
  | .union p _ => p
  | .key p _ => p
  | .custom p _ => p
  | .unexpected p => p

/-- `rethrow`'s `e.info.path.push(seg)`: append a segment at the end of the
error's own path (nested failures inside `union`/`key` are untouched). -/
def ErrorInfo.pushPath : ErrorInfo → PathSeg → ErrorInfo
  | .expected p s, seg => .expected (p ++ [seg]) s
  | .union p fs, seg => .union (p ++ [seg]) fs
  | .key p e, seg => .key (p ++ [seg]) e
  | .custom p m, seg => .custom (p ++ [seg]) m
  | .unexpected p, seg => .unexpected (p ++ [seg])

/-- Outcome of running a validator: normal return, a thrown `ValidationError`,
or a thrown exception of any other kind (identified by an opaque tag). -/
inductive VResult where
  | ok (v : JSVal)
  | verr (e : ErrorInfo)
  | oerr (tag : Nat)
deriving Repr

/-- Heap-stored data: objects are association lists in JS enumeration order,
arrays are element lists. `next` is the next fresh reference id, used when a
validator (only `record`) allocates a new container. -/
structure Heap where
  objs : List (Nat × List (String × JSVal))
  arrs : List (Nat × List JSVal)
  next : Nat
deriving Repr

/-- Lookup by first component in an association list (decidable-equality
version, easier to reason about than `List.lookup`'s `BEq`). -/
def assocFind {κ : Type} {α : Type} [DecidableEq κ] : List (κ × α) → κ → Option α
  | [], _ => none
  | (k', v) :: rest, k => if k' = k then some v else assocFind rest k

/-- Replace the value at a key in an association list; no-op when absent. -/
def assocSet {κ : Type} {α : Type} [DecidableEq κ] : List (κ × α) → κ → α → List (κ × α)
  | [], _, _ => []
  | (k', v') :: rest, k, v => if k' = k then (k', v) :: rest else (k', v') :: assocSet rest k v

/-- The field list of the object with the given id (empty for a dangling id). -/
def getObjFields (h : Heap) (id : Nat) : List (String × JSVal) :=
  (assocFind h.objs id).getD []

/-- `x[k]` on an object: `undefined` when the property is absent. -/
def getField (h : Heap) (id : Nat) (k : String) : JSVal :=
  (assocFind (getObjFields h id) k).getD (.prim .undef)

/-- Set a property of an object's field list: overwrite in place when present,
append at the end when absent (JS property creation order). -/
def setFieldList : List (String × JSVal) → String → JSVal → List (String × JSVal)
  | [], k, v => [(k, v)]
  | (k', v') :: rest, k, v =>
      if k' = k then (k', v) :: rest else (k', v') :: setFieldList rest k v

/-- `x[k] = v` on the object with the given id. -/
def setField (h : Heap) (id : Nat) (k : String) (v : JSVal) : Heap :=
  { h with objs := assocSet h.objs id (setFieldList (getObjFields h id) k v) }

/-- The element list of the array with the given id. -/
def getArr (h : Heap) (id : Nat) : List JSVal :=
  (assocFind h.arrs id).getD []

/-- `x[i]` on an array (`undefined` out of bounds). -/
def getElem' (h : Heap) (id : Nat) (i : Nat) : JSVal :=
  (getArr h id).getD i (.prim .undef)

/-- `x[i] = v` on the array with the given id (in-bounds writes only arise in
the library: every loop is bounded by the array's length). -/
def setElem (h : Heap) (id : Nat) (i : Nat) (v : JSVal) : Heap :=
  { h with arrs := assocSet h.arrs id ((getArr h id).set i v) }

/-- Allocate a fresh empty object (`let y = {}` in `record`), returning its id. -/
def allocObj (h : Heap) : Heap × Nat :=
  ({ h with objs := h.objs ++ [(h.next, [])], next := h.next + 1 }, h.next)

/-- JS strict equality `===` on the modelled values.  `NaN !== NaN`; object
and array references compare by id. -/
def jsStrictEq : JSVal → JSVal → Bool
  | .prim (.str a), .prim (.str b) => a = b
  | .prim (.num a), .prim (.num b) => a = b
  | .prim (.inf a), .prim (.inf b) => a = b
  | .prim (.bool a), .prim (.bool b) => a = b
  | .prim .null, .prim .null => true
  | .prim .undef, .prim .undef => true
  | .obj i, .obj j => i = j
  | .arr i, .arr j => i = j
  | _, _ => false

/-- `JSON.stringify` of a primitive literal, used for the `expected` text of a
failed literal match.  String escaping and the floating-point printing of
non-integer numbers are simplified (no claim exercises them); `NaN` and the
infinities stringify to `"null"` as in JS. -/
def jsonStringifyPrim : Prim → String
  | .str s => "\"" ++ s ++ "\""
  | .num q => if q.den = 1 then toString q.num else toString q
  | .nan => "null"
  | .inf _ => "null"
  | .bool b => if b then "true" else "false"
  | .null => "null"
  | .undef => "undefined"

/-- JS property-key coercion (`y[k] = v` coerces `k` to a string key).
The object/array cases are approximations; `record`'s key schemas resolve to
primitives. -/
def propKey : JSVal → String
  | .prim (.str s) => s
  | .prim (.num q) => if q.den = 1 then toString q.num else toString q
  | .prim .nan => "NaN"
  | .prim (.inf n) => if n then "-Infinity" else "Infinity"
  | .prim (.bool b) => if b then "true" else "false"
  | .prim .null => "null"
  | .prim .undef => "undefined"
  | .obj _ => "[object Object]"
  | .arr _ => ""

/-- An optional string pattern (the `RegExp` argument of `string`): its
membership test plus its display form (the `${regex}` interpolation). -/
structure StrPat where
  test : String → Bool
  display : String

/-- A schema, as dispatched on by `validate`:  a literal primitive, an
object-shaped or array-shaped structural schema, or a validator function.
The library's own validator-returning exports are dedicated constructors;
`vFn` is an arbitrary (pure) user validator and `vMap`'s second argument an
arbitrary mapping function, either of which may throw anything. -/
inductive SchemaV where
  | lit (p : Prim)
  | objS (fields : List (String × SchemaV))
  | arrS (elems : List SchemaV)
  | vString (pat : Option StrPat)
  | vNumber
  | vInteger
  | vBoolean
  | vAny
  | vNever
  | vMaybe (s : SchemaV) (dflt : JSVal)
  | vStruct (s : SchemaV)
  | vMap (s : SchemaV) (f : JSVal → VResult)
  | vFn (f : JSVal → VResult)
  | vRecord (ks : SchemaV) (vs : SchemaV)
  | vArray (s : SchemaV)
  | vAllOf (ss : List SchemaV)
  | vAnyOf (ss : List SchemaV)
  | vOneOf (ss : List SchemaV)

/-- The `expected` text for an array-shaped schema: `array[N]`. -/
def arrayNStr (n : Nat) : String := "array[" ++ toString n ++ "]"

theorem SchemaV.sizeOf_pos (s : SchemaV) : 0 < sizeOf s := by
  cases s <;> simp_arith

mutual

/-- The core dispatcher `validate(x, schema)` of src/index.ts, together with
the runtime behaviour of every validator the library exports.  Structure:
  * function schema: invoke it (each library validator constructor is
    interpreted here; `vFn`/`vMap` carry opaque functions);
  * object/array schema: shape/arity check, then the `for i in schema`
    write-back loop (`goFields` / `goTuple`);
  * otherwise: literal strict-equality match. -/
def validate : SchemaV → JSVal → Heap → Heap × VResult
  | .lit p, x, h =>
      if jsStrictEq x (.prim p) then (h, .ok x)
      else (h, .verr (.expected [] (jsonStringifyPrim p)))
  | .objS fields, x, h =>
      match x with
      | .obj id => goFields fields id h
      | _ => (h, .verr (.expected [] "object"))
  | .arrS elems, x, h =>
      match x with
      | .arr id =>
          if (getArr h id).length = elems.length then goTuple elems 0 id h
          else (h, .verr (.expected [] (arrayNStr elems.length)))
      | _ => (h, .verr (.expected [] (arrayNStr elems.length)))
  | .vString pat, x, h =>
      match x with
      | .prim (.str s) =>
          match pat with
          | none => (h, .ok x)
          | some p =>
              if p.test s then (h, .ok x)
              else (h, .verr (.expected [] ("string matching " ++ p.display)))
      | _ =>
          match pat with
          | none => (h, .verr (.expected [] "string"))
          | some p => (h, .verr (.expected [] ("string matching " ++ p.display)))
  | .vNumber, x, h =>
      match x with
      | .prim (.num _) => (h, .ok x)
      | _ => (h, .verr (.expected [] "finite number"))
  | .vInteger, x, h =>
      match x with
      | .prim (.num q) =>
          if q.den = 1 then (h, .ok x) else (h, .verr (.expected [] "integer"))
      | _ => (h, .verr (.expected [] "integer"))
  | .vBoolean, x, h =>
      match x with
      | .prim (.bool _) => (h, .ok x)
      | _ => (h, .verr (.expected [] "boolean"))
  | .vAny, x, h => (h, .ok x)
  | .vNever, _, h => (h, .verr (.expected [] "never"))
  | .vMaybe s d, x, h =>
      if x = .prim .undef then (h, .ok d) else validate s x h
  | .vStruct s, x, h => validate s x h
  | .vMap s f, x, h =>
      match validate s x h with
      | (h', .ok v) => (h', f v)
      | r => r
  | .vFn f, x, h => (h, f x)
  | .vRecord ks vs, x, h =>
      match x with
      | .obj id =>
          let a := allocObj h
          goRecord ks vs ((getObjFields h id).map Prod.fst) id a.2 a.1
      | _ => (h, .verr (.expected [] "object"))
  | .vArray s, x, h =>
      match x with
      | .arr id => goElems s (getArr h id).length 0 id h
      | _ => (h, .verr (.expected [] "array"))
  | .vAllOf ss, x, h => goAllOf ss x h
  | .vAnyOf ss, x, h => goAnyOf ss x [] h
  | .vOneOf ss, x, h => goOneOf ss x 0 x [] h
termination_by s _ _ => (sizeOf s, 0)

/-- The `for (let i in schema) { try { x[i] = validate(x[i], schema[i]) } catch
{ rethrow(e, i) } }` loop of the dispatcher, for an object-shaped schema. -/
def goFields : List (String × SchemaV) → Nat → Heap → Heap × VResult
  | [], id, h => (h, .ok (.obj id))
  | (k, s) :: rest, id, h =>
      match validate s (getField h id k) h with
      | (h', .ok v) => goFields rest id (setField h' id k v)
      | (h', .verr e) => (h', .verr (e.pushPath (.str k)))
      | (h', .oerr t) => (h', .oerr t)
termination_by fs _ _ => (sizeOf fs, 0)

/-- The same loop for an array-shaped schema: `for in` over an array yields
the index keys as strings, so the path segment pushed on failure is the
decimal string of the index. -/
def goTuple : List SchemaV → Nat → Nat → Heap → Heap × VResult
  | [], _, id, h => (h, .ok (.arr id))
  | s :: rest, i, id, h =>
      match validate s (getElem' h id i) h with
      | (h', .ok v) => goTuple rest (i + 1) id (setElem h' id i v)
      | (h', .verr e) => (h', .verr (e.pushPath (.str (toString i))))
      | (h', .oerr t) => (h', .oerr t)
termination_by es _ _ _ => (sizeOf es, 0)

/-- The element loop of the `array` combinator (`for (let i = 0; i < x.length;
i++)`); here the index is a number, so failures get a numeric path segment.
The loop bound is the array's length at entry: no validator changes an
array's length (element writes are `List.set`), so this is the live bound. -/
def goElems : SchemaV → Nat → Nat → Nat → Heap → Heap × VResult
  | _, 0, _, id, h => (h, .ok (.arr id))
  | s, n + 1, i, id, h =>
      match validate s (getElem' h id i) h with
      | (h', .ok v) => goElems s n (i + 1) id (setElem h' id i v)
      | (h', .verr e) => (h', .verr (e.pushPath (.idx i)))
      | (h', .oerr t) => (h', .oerr t)
termination_by s n _ _ _ => (sizeOf s, n)

/-- The per-key loop of `record`: for each key of the input (snapshot of the
enumeration order), validate the value first (key appended to the path on
failure), then the key itself (failures wrapped in a `key` descriptor whose
path is the single original key); write the pair into the fresh object. -/
def goRecord : SchemaV → SchemaV → List String → Nat → Nat → Heap → Heap × VResult
  | _, _, [], _, yid, h => (h, .ok (.obj yid))
  | ks, vs, k :: rest, xid, yid, h =>
      match validate vs (getField h xid k) h with
      | (h1, .ok v) =>
          match validate ks (.prim (.str k)) h1 with
          | (h2, .ok kv) => goRecord ks vs rest xid yid (setField h2 yid (propKey kv) v)
          | (h2, .verr e) => (h2, .verr (.key [.str k] e))
          | (h2, .oerr t) => (h2, .oerr t)
      | (h1, .verr e) => (h1, .verr (e.pushPath (.str k)))
      | (h1, .oerr t) => (h1, .oerr t)
termination_by ks vs keys _ _ _ => (sizeOf ks + sizeOf vs, keys.length)
decreasing_by
  all_goals simp_wf
  all_goals first
  | (apply Prod.Lex.right
     simp_arith)
  | (apply Prod.Lex.left
     have hk := SchemaV.sizeOf_pos ks
     have hv := SchemaV.sizeOf_pos vs
     omega)

/-- `allOf`'s `schemas.reduce(validate, x)`: left fold, first failure aborts. -/
def goAllOf : List SchemaV → JSVal → Heap → Heap × VResult
  | [], x, h => (h, .ok x)
  | s :: rest, x, h =>
      match validate s x h with
      | (h', .ok v) => goAllOf rest v h'
      | r => r
termination_by ss _ _ => (sizeOf ss, 0)

/-- `anyOf`'s loop: return the first success; collect `ValidationError`s of
failed alternatives in order; rethrow any other exception unchanged. -/
def goAnyOf : List SchemaV → JSVal → List ErrorInfo → Heap → Heap × VResult
  | [], _, fails, h => (h, .verr (.union [] fails))
  | s :: rest, x, fails, h =>
      match validate s x h with
      | (h', .ok v) => (h', .ok v)
      | (h', .verr e) => goAnyOf rest x (fails ++ [e]) h'
      | (h', .oerr t) => (h', .oerr t)
termination_by ss _ _ _ => (sizeOf ss, 0)

/-- `oneOf`'s loop: count successes (keeping the latest result), abort with
`unexpected` as soon as the count exceeds one, collect failures, and at the
end either fail with `union` (no success) or return the single result. -/
def goOneOf : List SchemaV → JSVal → Nat → JSVal → List ErrorInfo → Heap → Heap × VResult
  | [], _, count, result, fails, h =>
      if count = 0 then (h, .verr (.union [] fails)) else (h, .ok result)
  | s :: rest, x, count, result, fails, h =>
      match validate s x h with
      | (h', .ok v) =>
          if count + 1 > 1 then (h', .verr (.unexpected []))
          else goOneOf rest x (count + 1) v fails h'
      | (h', .verr e) => goOneOf rest x count result (fails ++ [e]) h'
      | (h', .oerr t) => (h', .oerr t)
termination_by ss _ _ _ _ _ => (sizeOf ss, 0)

end

/-- The `map` combinator in terms of `vMap` (identical; named for clarity). -/
def mapS (s : SchemaV) (f : JSVal → VResult) : SchemaV := .vMap s f

/-- The `filter` combinator: `map(schema, x => filter(x) ? x : fail(msg))`,
with `fail` building a `custom` error from a message string (empty path). -/
def filterS (s : SchemaV) (p : JSVal → Bool) (msg : String) : SchemaV :=
  .vMap s (fun x => if p x then .ok x else .verr (.custom [] msg))

/-! ## Spec-side characterizations of the combinator loops -/

/-- The empty heap. -/
def emptyHeap : Heap := ⟨[], [], 0⟩

/-- Shorthand for a string value. -/
def jstr (s : String) : JSVal := .prim (.str s)

/-- `failChain ss x h = some (h', es)` states that attempting the schemas of
`ss` on `x` one after the other (threading the heap) makes every one of them
throw a `ValidationError`, with `es` the error infos in declared order and
`h'` the heap after the last attempt. -/
def failChain : List SchemaV → JSVal → Heap → Option (Heap × List ErrorInfo)
  | [], _, h => some (h, [])
  | s :: rest, x, h =>
      match validate s x h with
      | (h', .verr e) =>
          match failChain rest x h' with
          | some (h'', es) => some (h'', e :: es)
          | none => none
      | _ => none

theorem goAnyOf_append_fail :
    ∀ pre l x acc h h1 es, failChain pre x h = some (h1, es) →
      goAnyOf (pre ++ l) x acc h = goAnyOf l x (acc ++ es) h1 := by
  intro pre
  induction pre with
  | nil =>
    intro l x acc h h1 es hc
    simp [failChain] at hc
    obtain ⟨rfl, rfl⟩ := hc
    simp
  | cons s rest ih =>
    intro l x acc h h1 es hc
    simp only [failChain] at hc
    rcases hr : validate s x h with ⟨h', r⟩
    rw [hr] at hc
    cases r with
    | ok v => simp at hc
    | oerr t => simp at hc
    | verr e =>
      simp only at hc
      rcases hfc : failChain rest x h' with _ | ⟨h'', es'⟩ <;> rw [hfc] at hc
      · simp at hc
      · simp only [Option.some.injEq, Prod.mk.injEq] at hc
        obtain ⟨rfl, rfl⟩ := hc
        have hrec := ih l x (acc ++ [e]) h' _ es' hfc
        simp only [List.cons_append, goAnyOf, hr]
        rw [hrec]
        simp

theorem goOneOf_append_fail :
    ∀ pre l x c r acc h h1 es, failChain pre x h = some (h1, es) →
      goOneOf (pre ++ l) x c r acc h = goOneOf l x c r (acc ++ es) h1 := by
  intro pre
  induction pre with
  | nil =>
    intro l x c r acc h h1 es hc
    simp [failChain] at hc
    obtain ⟨rfl, rfl⟩ := hc
    simp
  | cons s rest ih =>
    intro l x c r acc h h1 es hc
    simp only [failChain] at hc
    rcases hr : validate s x h with ⟨h', rr⟩
    rw [hr] at hc
    cases rr with
    | ok v => simp at hc
    | oerr t => simp at hc
    | verr e =>
      simp only at hc
      rcases hfc : failChain rest x h' with _ | ⟨h'', es'⟩ <;> rw [hfc] at hc
      · simp at hc
      · simp only [Option.some.injEq, Prod.mk.injEq] at hc
        obtain ⟨rfl, rfl⟩ := hc
        have hrec := ih l x c r (acc ++ [e]) h' _ es' hfc
        simp only [List.cons_append, goOneOf, hr]
        rw [hrec]
        simp

/-- C1: `anyOf(...schemas)` tries the schemas in declared argument order and
returns the result of the first schema whose validation succeeds, without
attempting the later schemas (so a value matching several alternatives gets
the first match's result); if every schema fails, it throws a `union` error
whose failures list contains, in declared order, the error descriptor of
every attempted alternative. -/
theorem anyOf_first_success_and_union :
    (∀ pre s post x h h1 es h2 v,
      failChain pre x h = some (h1, es) →
      validate s x h1 = (h2, .ok v) →
      validate (.vAnyOf (pre ++ s :: post)) x h = (h2, .ok v))
  ∧ (∀ ss x h h1 es,
      failChain ss x h = some (h1, es) →
      validate (.vAnyOf ss) x h = (h1, .verr (.union [] es))) := by
  constructor
  · intro pre s post x h h1 es h2 v hc hs
    simp only [validate]
    rw [goAnyOf_append_fail pre (s :: post) x [] h h1 es hc]
    simp only [goAnyOf, hs]
  · intro ss x h h1 es hc
    simp only [validate]
    have habs := goAnyOf_append_fail ss [] x [] h h1 es hc
    rw [List.append_nil] at habs
    rw [habs]
    simp [goAnyOf]

theorem anyOf_first_success_and_union_witness :
    validate (.vAnyOf [.lit (.str "b"), .lit (.str "a"), .vMap .vAny (fun v => .ok v)])
        (jstr "a") emptyHeap = (emptyHeap, .ok (jstr "a"))
  ∧ validate (.vAnyOf [.lit (.str "b"), .lit (.str "c")]) (jstr "a") emptyHeap
      = (emptyHeap, .verr (.union []
          [.expected [] (jsonStringifyPrim (.str "b")),
           .expected [] (jsonStringifyPrim (.str "c"))])) := by
  constructor
  · exact anyOf_first_success_and_union.1 [.lit (.str "b")] (.lit (.str "a"))
      [.vMap .vAny (fun v => .ok v)] (jstr "a") emptyHeap emptyHeap
      [.expected [] (jsonStringifyPrim (.str "b"))] emptyHeap (jstr "a")
      (by simp [failChain, validate, jsStrictEq, jstr])
      (by simp [validate, jsStrictEq, jstr])
  · exact anyOf_first_success_and_union.2 [.lit (.str "b"), .lit (.str "c")] (jstr "a")
      emptyHeap emptyHeap
      [.expected [] (jsonStringifyPrim (.str "b")), .expected [] (jsonStringifyPrim (.str "c"))]
      (by simp [failChain, validate, jsStrictEq, jstr])

/-- C2: `oneOf(...schemas)` counts successes over the alternatives in order:
zero successes throws a `union` error aggregating every alternative's
failure; exactly one success returns that schema's result; as soon as a
second success is detected it throws `unexpected` without attempting the
remaining schemas.  Concretely, `oneOf(anyOf("a","b"), anyOf("a","c"))` on
`"a"` fails with kind `unexpected` and on `"b"` succeeds returning `"b"`. -/
theorem oneOf_success_counting :
    (∀ ss x h h1 es,
      failChain ss x h = some (h1, es) →
      validate (.vOneOf ss) x h = (h1, .verr (.union [] es)))
  ∧ (∀ pre s post x h h1 es1 h2 v h3 es2,
      failChain pre x h = some (h1, es1) →
      validate s x h1 = (h2, .ok v) →
      failChain post x h2 = some (h3, es2) →
      validate (.vOneOf (pre ++ s :: post)) x h = (h3, .ok v))
  ∧ (∀ pre1 s1 mid s2 post x h h1 es1 h2 v1 h3 es2 h4 v2,
      failChain pre1 x h = some (h1, es1) →
      validate s1 x h1 = (h2, .ok v1) →
      failChain mid x h2 = some (h3, es2) →
      validate s2 x h3 = (h4, .ok v2) →
      validate (.vOneOf (pre1 ++ s1 :: (mid ++ s2 :: post))) x h
        = (h4, .verr (.unexpected [])))
  ∧ validate (.vOneOf [.vAnyOf [.lit (.str "a"), .lit (.str "b")],
      .vAnyOf [.lit (.str "a"), .lit (.str "c")]]) (jstr "a") emptyHeap
      = (emptyHeap, .verr (.unexpected []))
  ∧ validate (.vOneOf [.vAnyOf [.lit (.str "a"), .lit (.str "b")],
      .vAnyOf [.lit (.str "a"), .lit (.str "c")]]) (jstr "b") emptyHeap
      = (emptyHeap, .ok (jstr "b")) := by
  refine ⟨?_, ?_, ?_, ?_, ?_⟩
  · intro ss x h h1 es hc
    simp only [validate]
    have habs := goOneOf_append_fail ss [] x 0 x [] h h1 es hc
    rw [List.append_nil] at habs
    rw [habs]
    simp [goOneOf]
  · intro pre s post x h h1 es1 h2 v h3 es2 hc hs hc2
    simp only [validate]
    rw [goOneOf_append_fail pre (s :: post) x 0 x [] h h1 es1 hc]
    simp only [goOneOf, hs]
    norm_num
    have habs := goOneOf_append_fail post [] x 1 v es1 h2 h3 es2 hc2
    rw [List.append_nil] at habs
    rw [habs]
    simp [goOneOf]
  · intro pre1 s1 mid s2 post x h h1 es1 h2 v1 h3 es2 h4 v2 hc1 hs1 hc2 hs2
    simp only [validate]
    rw [goOneOf_append_fail pre1 (s1 :: (mid ++ s2 :: post)) x 0 x [] h h1 es1 hc1]
    simp only [goOneOf, hs1]
    norm_num
    rw [goOneOf_append_fail mid (s2 :: post) x 1 v1 es1 h2 h3 es2 hc2]
    simp only [goOneOf, hs2]
    norm_num
  · simp [validate, goOneOf, goAnyOf, jsStrictEq, jstr]
  · simp [validate, goOneOf, goAnyOf, jsStrictEq, jstr]

theorem oneOf_success_counting_witness :
    validate (.vOneOf [.lit (.str "z"), .lit (.str "w")]) (jstr "a") emptyHeap
      = (emptyHeap, .verr (.union []
          [.expected [] (jsonStringifyPrim (.str "z")),
           .expected [] (jsonStringifyPrim (.str "w"))]))
  ∧ validate (.vOneOf [.lit (.str "z"), .lit (.str "a"), .lit (.str "w")]) (jstr "a")
      emptyHeap = (emptyHeap, .ok (jstr "a"))
  ∧ validate (.vOneOf [.lit (.str "z"), .vAny, .lit (.str "w"), .vAny, .vNever])
      (jstr "a") emptyHeap = (emptyHeap, .verr (.unexpected [])) := by
  refine ⟨?_, ?_, ?_⟩
  · exact oneOf_success_counting.1 [.lit (.str "z"), .lit (.str "w")] (jstr "a")
      emptyHeap emptyHeap
      [.expected [] (jsonStringifyPrim (.str "z")), .expected [] (jsonStringifyPrim (.str "w"))]
      (by simp [failChain, validate, jsStrictEq, jstr])
  · exact oneOf_success_counting.2.1 [.lit (.str "z")] (.lit (.str "a")) [.lit (.str "w")]
      (jstr "a") emptyHeap emptyHeap [.expected [] (jsonStringifyPrim (.str "z"))]
      emptyHeap (jstr "a") emptyHeap [.expected [] (jsonStringifyPrim (.str "w"))]
      (by simp [failChain, validate, jsStrictEq, jstr])
      (by simp [validate, jsStrictEq, jstr])
      (by simp [failChain, validate, jsStrictEq, jstr])
  · exact oneOf_success_counting.2.2.1 [.lit (.str "z")] .vAny [.lit (.str "w")] .vAny
      [.vNever] (jstr "a") emptyHeap emptyHeap
      [.expected [] (jsonStringifyPrim (.str "z"))] emptyHeap (jstr "a")
      emptyHeap [.expected [] (jsonStringifyPrim (.str "w"))] emptyHeap (jstr "a")
      (by simp [failChain, validate, jsStrictEq, jstr])
      (by simp [validate])
      (by simp [failChain, validate, jsStrictEq, jstr])
      (by simp [validate])

/-- C9: `anyOf` and `oneOf` catch and aggregate only `ValidationError`s: if an
alternative's validation throws any other exception, that exception
propagates immediately, the remaining alternatives are not attempted, and no
`union` or `unexpected` descriptor is produced. -/
theorem combinators_rethrow_foreign_exceptions :
    (∀ pre s post x h h1 es h2 t,
      failChain pre x h = some (h1, es) →
      validate s x h1 = (h2, .oerr t) →
      validate (.vAnyOf (pre ++ s :: post)) x h = (h2, .oerr t))
  ∧ (∀ pre s post x h h1 es h2 t,
      failChain pre x h = some (h1, es) →
      validate s x h1 = (h2, .oerr t) →
      validate (.vOneOf (pre ++ s :: post)) x h = (h2, .oerr t))
  ∧ (∀ pre1 s1 mid s post x h h1 es1 h2 v1 h3 es2 h4 t,
      failChain pre1 x h = some (h1, es1) →
      validate s1 x h1 = (h2, .ok v1) →
      failChain mid x h2 = some (h3, es2) →
      validate s x h3 = (h4, .oerr t) →
      validate (.vOneOf (pre1 ++ s1 :: (mid ++ s :: post))) x h = (h4, .oerr t)) := by
  refine ⟨?_, ?_, ?_⟩
  · intro pre s post x h h1 es h2 t hc hs
    simp only [validate]
    rw [goAnyOf_append_fail pre (s :: post) x [] h h1 es hc]
    simp only [goAnyOf, hs]
  · intro pre s post x h h1 es h2 t hc hs
    simp only [validate]
    rw [goOneOf_append_fail pre (s :: post) x 0 x [] h h1 es hc]
    simp only [goOneOf, hs]
  · intro pre1 s1 mid s post x h h1 es1 h2 v1 h3 es2 h4 t hc1 hs1 hc2 hs
    simp only [validate]
    rw [goOneOf_append_fail pre1 (s1 :: (mid ++ s :: post)) x 0 x [] h h1 es1 hc1]
    simp only [goOneOf, hs1]
    norm_num
    rw [goOneOf_append_fail mid (s :: post) x 1 v1 es1 h2 h3 es2 hc2]
    simp only [goOneOf, hs]

theorem combinators_rethrow_foreign_exceptions_witness :
    validate (.vAnyOf [.lit (.str "z"), .vFn (fun _ => .oerr 7), .vAny]) (jstr "a")
      emptyHeap = (emptyHeap, .oerr 7)
  ∧ validate (.vOneOf [.lit (.str "z"), .vFn (fun _ => .oerr 7), .vAny]) (jstr "a")
      emptyHeap = (emptyHeap, .oerr 7)
  ∧ validate (.vOneOf [.lit (.str "z"), .vAny, .lit (.str "w"),
      .vFn (fun _ => .oerr 9), .vAny]) (jstr "a") emptyHeap
      = (emptyHeap, .oerr 9) := by
  refine ⟨?_, ?_, ?_⟩
  · exact combinators_rethrow_foreign_exceptions.1 [.lit (.str "z")]
      (.vFn (fun _ => .oerr 7)) [.vAny] (jstr "a") emptyHeap emptyHeap
      [.expected [] (jsonStringifyPrim (.str "z"))] emptyHeap 7
      (by simp [failChain, validate, jsStrictEq, jstr])
      (by simp [validate])
  · exact combinators_rethrow_foreign_exceptions.2.1 [.lit (.str "z")]
      (.vFn (fun _ => .oerr 7)) [.vAny] (jstr "a") emptyHeap emptyHeap
      [.expected [] (jsonStringifyPrim (.str "z"))] emptyHeap 7
      (by simp [failChain, validate, jsStrictEq, jstr])
      (by simp [validate])
  · exact combinators_rethrow_foreign_exceptions.2.2 [.lit (.str "z")] .vAny
      [.lit (.str "w")] (.vFn (fun _ => .oerr 9)) [.vAny] (jstr "a") emptyHeap
      emptyHeap [.expected [] (jsonStringifyPrim (.str "z"))] emptyHeap (jstr "a")
      emptyHeap [.expected [] (jsonStringifyPrim (.str "w"))] emptyHeap 9
      (by simp [failChain, validate, jsStrictEq, jstr])
      (by simp [validate])
      (by simp [failChain, validate, jsStrictEq, jstr])
      (by simp [validate])

/-! ## Success-value lemmas: every structural loop returns its own container -/

/-- Is the outcome a normal return? -/
def VResult.isOk : VResult → Bool
  | .ok _ => true
  | _ => false

theorem goFields_ok_val :
    ∀ fs id h h' v, goFields fs id h = (h', .ok v) → v = .obj id := by
  intro fs
  induction fs with
  | nil => intro id h h' v hg; simp [goFields] at hg; exact hg.2.symm
  | cons p rest ih =>
    intro id h h' v hg
    rcases p with ⟨k, s⟩
    simp only [goFields] at hg
    rcases hr : validate s (getField h id k) h with ⟨h1, r⟩
    rw [hr] at hg
    cases r with
    | ok w => exact ih id _ h' v hg
    | verr e => simp at hg
    | oerr t => simp at hg

theorem goTuple_ok_val :
    ∀ es i id h h' v, goTuple es i id h = (h', .ok v) → v = .arr id := by
  intro es
  induction es with
  | nil => intro i id h h' v hg; simp [goTuple] at hg; exact hg.2.symm
  | cons s rest ih =>
    intro i id h h' v hg
    simp only [goTuple] at hg
    rcases hr : validate s (getElem' h id i) h with ⟨h1, r⟩
    rw [hr] at hg
    cases r with
    | ok w => exact ih _ id _ h' v hg
    | verr e => simp at hg
    | oerr t => simp at hg

theorem goElems_ok_val :
    ∀ n s i id h h' v, goElems s n i id h = (h', .ok v) → v = .arr id := by
  intro n
  induction n with
  | zero => intro s i id h h' v hg; simp [goElems] at hg; exact hg.2.symm
  | succ m ih =>
    intro s i id h h' v hg
    simp only [goElems] at hg
    rcases hr : validate s (getElem' h id i) h with ⟨h1, r⟩
    rw [hr] at hg
    cases r with
    | ok w => exact ih s _ id _ h' v hg
    | verr e => simp at hg
    | oerr t => simp at hg

theorem goRecord_ok_val :
    ∀ keys ks vs xid yid h h' v, goRecord ks vs keys xid yid h = (h', .ok v) → v = .obj yid := by
  intro keys
  induction keys with
  | nil => intro ks vs xid yid h h' v hg; simp [goRecord] at hg; exact hg.2.symm
  | cons k rest ih =>
    intro ks vs xid yid h h' v hg
    simp only [goRecord] at hg
    rcases hr : validate vs (getField h xid k) h with ⟨h1, r⟩
    rw [hr] at hg
    cases r with
    | ok w =>
      simp only at hg
      rcases hr2 : validate ks (.prim (.str k)) h1 with ⟨h2, r2⟩
      rw [hr2] at hg
      cases r2 with
      | ok kv => exact ih ks vs xid yid _ h' v hg
      | verr e => simp at hg
      | oerr t => simp at hg
    | verr e => simp at hg
    | oerr t => simp at hg

/-! ## C3: error path accumulation for a nested object schema -/

/-- The schema `{a: {b: number()}}`. -/
def nestedSchema : SchemaV := .objS [("a", .objS [("b", .vNumber)])]

/-- The input `{a: {b: "x"}}`: object 0 is the outer value, object 1 the inner. -/
def nestedHeap : Heap := ⟨[(0, [("a", .obj 1)]), (1, [("b", jstr "x")])], [], 2⟩

/-- C3: validating `{a: {b: "x"}}` against `{a: {b: number()}}` fails with a
`ValidationError` whose internal path list is `["b", "a"]` — the innermost
segment first, each enclosing frame having appended its key as the failure
unwound — so the consumer-facing root-to-leaf order is `a` then `b`. -/
theorem nested_path_innermost_first :
    validate nestedSchema (.obj 0) nestedHeap
      = (nestedHeap, .verr (.expected [.str "b", .str "a"] "finite number"))
  ∧ (ErrorInfo.expected [.str "b", .str "a"] "finite number").path
      = [.str "b", .str "a"] := by
  constructor
  · simp [validate, goFields, nestedSchema, nestedHeap, getField, getObjFields, assocFind,
      ErrorInfo.pushPath, jstr]
  · rfl

/-! ## Heap-independence of the leaf validators -/

/-- Result of a literal match, as a function of the input alone. -/
def litRes (p : Prim) (x : JSVal) : VResult :=
  if jsStrictEq x (.prim p) then .ok x else .verr (.expected [] (jsonStringifyPrim p))

/-- Result of `string(pat?)`, as a function of the input alone. -/
def stringRes (pat : Option StrPat) (x : JSVal) : VResult :=
  match x with
  | .prim (.str s) =>
      match pat with
      | none => .ok x
      | some p =>
          if p.test s then .ok x
          else .verr (.expected [] ("string matching " ++ p.display))
  | _ =>
      match pat with
      | none => .verr (.expected [] "string")
      | some p => .verr (.expected [] ("string matching " ++ p.display))

/-- Result of `number()`, as a function of the input alone. -/
def numberRes (x : JSVal) : VResult :=
  match x with
  | .prim (.num _) => .ok x
  | _ => .verr (.expected [] "finite number")

/-- Result of `integer()`, as a function of the input alone. -/
def integerRes (x : JSVal) : VResult :=
  match x with
  | .prim (.num q) => if q.den = 1 then .ok x else .verr (.expected [] "integer")
  | _ => .verr (.expected [] "integer")

/-- Result of `boolean()`, as a function of the input alone. -/
def booleanRes (x : JSVal) : VResult :=
  match x with
  | .prim (.bool _) => .ok x
  | _ => .verr (.expected [] "boolean")

theorem validate_lit_eq : ∀ p x h, validate (.lit p) x h = (h, litRes p x) := by
  intro p x h
  by_cases hc : jsStrictEq x (.prim p) = true <;> simp [validate, litRes, hc]

theorem validate_vString_eq : ∀ pat x h, validate (.vString pat) x h = (h, stringRes pat x) := by
  intro pat x h
  rcases x with p | i | i
  · rcases p with s | q | _ | n | b | _ | _ <;> rcases pat with _ | pp <;>
      first
      | (by_cases hc : pp.test s = true <;> simp [validate, stringRes, hc])
      | simp [validate, stringRes]
  · rcases pat with _ | pp <;> simp [validate, stringRes]
  · rcases pat with _ | pp <;> simp [validate, stringRes]

theorem validate_vNumber_eq : ∀ x h, validate .vNumber x h = (h, numberRes x) := by
  intro x h
  rcases x with p | i | i
  · rcases p with s | q | _ | n | b | _ | _ <;> simp [validate, numberRes]
  · simp [validate, numberRes]
  · simp [validate, numberRes]

theorem validate_vInteger_eq : ∀ x h, validate .vInteger x h = (h, integerRes x) := by
  intro x h
  rcases x with p | i | i
  · rcases p with s | q | _ | n | b | _ | _ <;>
      first
      | (by_cases hc : q.den = 1 <;> simp [validate, integerRes, hc])
      | simp [validate, integerRes]
  · simp [validate, integerRes]
  · simp [validate, integerRes]

theorem validate_vBoolean_eq : ∀ x h, validate .vBoolean x h = (h, booleanRes x) := by
  intro x h
  rcases x with p | i | i
  · rcases p with s | q | _ | n | b | _ | _ <;> simp [validate, booleanRes]
  · simp [validate, booleanRes]
  · simp [validate, booleanRes]

theorem validate_vAny_eq : ∀ x h, validate .vAny x h = (h, .ok x) := by
  intro x h
  rcases x with p | i | i
  · rcases p with s | q | _ | n | b | _ | _ <;> simp [validate]
  · simp [validate]
  · simp [validate]

theorem validate_vNever_eq : ∀ x h, validate .vNever x h = (h, .verr (.expected [] "never")) := by
  intro x h
  rcases x with p | i | i
  · rcases p with s | q | _ | n | b | _ | _ <;> simp [validate]
  · simp [validate]
  · simp [validate]

theorem validate_objS_not_obj (fs : List (String × SchemaV)) (x : JSVal) (h : Heap)
    (hx : ∀ id, x ≠ .obj id) :
    validate (.objS fs) x h = (h, .verr (.expected [] "object")) := by
  rcases x with p | i | i
  · rcases p with s | q | _ | n | b | _ | _ <;> simp [validate]
  · exact absurd rfl (hx i)
  · simp [validate]

theorem validate_arrS_not_arr (es : List SchemaV) (x : JSVal) (h : Heap)
    (hx : ∀ id, x ≠ .arr id) :
    validate (.arrS es) x h = (h, .verr (.expected [] (arrayNStr es.length))) := by
  rcases x with p | i | i
  · rcases p with s | q | _ | n | b | _ | _ <;> simp [validate]
  · simp [validate]
  · exact absurd rfl (hx i)

theorem validate_vArray_not_arr (s : SchemaV) (x : JSVal) (h : Heap)
    (hx : ∀ id, x ≠ .arr id) :
    validate (.vArray s) x h = (h, .verr (.expected [] "array")) := by
  rcases x with p | i | i
  · rcases p with s' | q | _ | n | b | _ | _ <;> simp [validate]
  · simp [validate]
  · exact absurd rfl (hx i)


/-! ## C6: exact-arity check of array-shaped schemas -/

/-- A heap with a single array `[0, "", 0]` at id 0. -/
def heapArr3 : Heap := ⟨[], [(0, [.prim (.num 0), jstr "", .prim (.num 0)])], 1⟩

/-- A heap with a single array `[0, ""]` at id 0. -/
def heapArr2 : Heap := ⟨[], [(0, [.prim (.num 0), jstr ""])], 1⟩

/-- C6: an array-shaped schema of N element schemas accepts only array inputs
of exactly length N; a non-array input or an array of another length fails
with `expected: "array[N]"`.  Concretely, `[number(), string()]` applied to
`[0, "", 0]` fails with `expected: "array[2]"`, and applied to `[0, ""]`
succeeds returning the same array reference with the heap untouched. -/
theorem arrS_exact_arity :
    (∀ elems x h, (∀ id, x ≠ .arr id) →
      validate (.arrS elems) x h = (h, .verr (.expected [] (arrayNStr elems.length))))
  ∧ (∀ elems id h, (getArr h id).length ≠ elems.length →
      validate (.arrS elems) (.arr id) h
        = (h, .verr (.expected [] (arrayNStr elems.length))))
  ∧ (∀ elems x h h' v, validate (.arrS elems) x h = (h', .ok v) →
      ∃ id, x = .arr id ∧ (getArr h id).length = elems.length ∧ v = x)
  ∧ validate (.arrS [.vNumber, .vString none]) (.arr 0) heapArr3
      = (heapArr3, .verr (.expected [] "array[2]"))
  ∧ validate (.arrS [.vNumber, .vString none]) (.arr 0) heapArr2
      = (heapArr2, .ok (.arr 0)) := by
  refine ⟨?_, ?_, ?_, ?_, ?_⟩
  · intro elems x h hx
    rcases x with p | id | id
    · simp [validate]
    · simp [validate]
    · exact absurd rfl (hx id)
  · intro elems id h hlen
    simp [validate, hlen]
  · intro elems x h h' v hv
    rcases x with p | id | id
    · simp [validate] at hv
    · simp [validate] at hv
    · refine ⟨id, rfl, ?_, ?_⟩
      · by_contra hlen
        simp [validate, hlen] at hv
      · by_cases hlen : (getArr h id).length = elems.length
        · simp only [validate, hlen, if_pos] at hv
          exact goTuple_ok_val elems 0 id h h' v hv
        · simp [validate, hlen] at hv
  · have h2 : ¬ (getArr heapArr3 0).length = 2 := by
      simp [heapArr3, getArr, assocFind]
    simp only [validate, getArr, heapArr3, assocFind]
    norm_num [arrayNStr]
    decide
  · simp [validate, goTuple, heapArr2, getArr, getElem', setElem, assocFind, assocSet, jstr]

theorem arrS_exact_arity_witness :
    validate (.arrS [.vNumber]) (.prim .null) emptyHeap
      = (emptyHeap, .verr (.expected [] (arrayNStr 1)))
  ∧ validate (.arrS [.vNumber, .vNumber, .vNumber]) (.arr 0) heapArr2
      = (heapArr2, .verr (.expected [] (arrayNStr 3)))
  ∧ ∃ id, JSVal.arr 0 = JSVal.arr id
      ∧ (getArr heapArr2 id).length = [SchemaV.vNumber, .vString none].length
      ∧ JSVal.arr 0 = JSVal.arr 0 := by
  refine ⟨?_, ?_, ?_⟩
  · exact arrS_exact_arity.1 [.vNumber] (.prim .null) emptyHeap (by intro id; simp)
  · exact arrS_exact_arity.2.1 [.vNumber, .vNumber, .vNumber] 0 heapArr2
      (by simp [heapArr2, getArr, assocFind])
  · exact arrS_exact_arity.2.2.1 [.vNumber, .vString none] (.arr 0) heapArr2 heapArr2
      (.arr 0) arrS_exact_arity.2.2.2.2

/-! ## C7: allOf is a short-circuiting left fold -/

theorem jsStrictEq_str_false {x : JSVal} {s : String} (hx : x ≠ .prim (.str s)) :
    jsStrictEq x (.prim (.str s)) = false := by
  cases x with
  | prim p => cases p <;> simp_all [jsStrictEq]
  | obj i => rfl
  | arr i => rfl

/-- `anyOf("a", "b", "c")`. -/
def anyABC : SchemaV := .vAnyOf [.lit (.str "a"), .lit (.str "b"), .lit (.str "c")]

/-- `anyOf("a", "c", "d")`. -/
def anyACD : SchemaV := .vAnyOf [.lit (.str "a"), .lit (.str "c"), .lit (.str "d")]

/-- `allOf(anyOf("a","b","c"), anyOf("a","c","d"))`. -/
def allOfNarrowEx : SchemaV := .vAllOf [anyABC, anyACD]


theorem jsStrictEq_str_true {x : JSVal} {s : String} (hx : x = .prim (.str s)) :
    jsStrictEq x (.prim (.str s)) = true := by
  subst hx
  simp [jsStrictEq]

/-- Evaluation of `anyOf` over three string literals, as a case split on the
input. -/
theorem anyOf3_lit_eval (a b c : String) (x : JSVal) (h : Heap) :
    validate (.vAnyOf [.lit (.str a), .lit (.str b), .lit (.str c)]) x h =
      (h, if x = .prim (.str a) then .ok x
        else if x = .prim (.str b) then .ok x
        else if x = .prim (.str c) then .ok x
        else .verr (.union [] [.expected [] (jsonStringifyPrim (.str a)),
          .expected [] (jsonStringifyPrim (.str b)),
          .expected [] (jsonStringifyPrim (.str c))])) := by
  simp only [validate, goAnyOf, validate_lit_eq, litRes]
  by_cases ha : x = .prim (.str a)
  · rw [if_pos ha]
    simp [jsStrictEq_str_true ha]
  · rw [if_neg ha]
    by_cases hb : x = .prim (.str b)
    · rw [if_pos hb]
      simp [jsStrictEq_str_false ha, jsStrictEq_str_true hb]
    · rw [if_neg hb]
      by_cases hc : x = .prim (.str c)
      · rw [if_pos hc]
        simp [jsStrictEq_str_false ha, jsStrictEq_str_false hb, jsStrictEq_str_true hc]
      · rw [if_neg hc]
        simp [jsStrictEq_str_false ha, jsStrictEq_str_false hb, jsStrictEq_str_false hc]

/-- `allOf(anyOf("a","b","c"), anyOf("a","c","d"))` accepts exactly the
values `"a"` and `"c"`. -/
theorem allOfNarrow_accepts :
    ∀ x h, (validate allOfNarrowEx x h).2.isOk = true ↔ (x = jstr "a" ∨ x = jstr "c") := by
  intro x h
  simp only [allOfNarrowEx, anyABC, anyACD]
  simp only [validate]
  simp only [goAllOf]
  rw [anyOf3_lit_eval "a" "b" "c" x h]
  by_cases ha : x = .prim (.str "a")
  · rw [if_pos ha]
    simp only [goAllOf]
    rw [anyOf3_lit_eval "a" "c" "d" x h, if_pos ha]
    simp [VResult.isOk, ha, jstr]
  · rw [if_neg ha]
    by_cases hb : x = .prim (.str "b")
    · rw [if_pos hb]
      simp only [goAllOf]
      rw [anyOf3_lit_eval "a" "c" "d" x h, if_neg ha]
      have hbc : ¬ x = .prim (.str "c") := by rw [hb]; simp
      have hbd : ¬ x = .prim (.str "d") := by rw [hb]; simp
      rw [if_neg hbc, if_neg hbd]
      simp [VResult.isOk, hb, hbc, ha, jstr]
    · rw [if_neg hb]
      by_cases hc : x = .prim (.str "c")
      · rw [if_pos hc]
        simp only [goAllOf]
        rw [anyOf3_lit_eval "a" "c" "d" x h, if_neg ha, if_pos hc]
        simp [VResult.isOk, hc, jstr]
      · rw [if_neg hc]
        simp [VResult.isOk, ha, hc, jstr]

/-- C7: `allOf(...schemas)` is a left fold: the first schema validates the
input, each following schema validates the previous result, the final result
is returned, and the first sub-failure (ValidationError or any other thrown
exception) aborts the chain and propagates with its descriptor and path
unmodified.  Concretely `allOf(anyOf("a","b","c"), anyOf("a","c","d"))`
accepts exactly the values `"a"` and `"c"` (in particular rejecting `"b"`,
`"d"`, `"e"` and `""`). -/
theorem allOf_left_fold :
    (∀ x h, validate (.vAllOf []) x h = (h, .ok x))
  ∧ (∀ s rest x h h' v, validate s x h = (h', .ok v) →
      validate (.vAllOf (s :: rest)) x h = validate (.vAllOf rest) v h')
  ∧ (∀ s rest x h h' e, validate s x h = (h', .verr e) →
      validate (.vAllOf (s :: rest)) x h = (h', .verr e))
  ∧ (∀ s rest x h h' t, validate s x h = (h', .oerr t) →
      validate (.vAllOf (s :: rest)) x h = (h', .oerr t))
  ∧ (∀ x h, (validate allOfNarrowEx x h).2.isOk = true ↔ (x = jstr "a" ∨ x = jstr "c"))
  ∧ validate allOfNarrowEx (jstr "a") emptyHeap = (emptyHeap, .ok (jstr "a"))
  ∧ validate allOfNarrowEx (jstr "c") emptyHeap = (emptyHeap, .ok (jstr "c")) := by
  refine ⟨?_, ?_, ?_, ?_, ?_, ?_, ?_⟩
  · intro x h
    simp [validate, goAllOf]
  · intro s rest x h h' v hs
    simp only [validate, goAllOf, hs]
  · intro s rest x h h' e hs
    simp only [validate, goAllOf, hs]
  · intro s rest x h h' t hs
    simp only [validate, goAllOf, hs]
  · exact allOfNarrow_accepts
  · simp [allOfNarrowEx, anyABC, anyACD, validate, goAllOf, goAnyOf, jsStrictEq, jstr]
  · simp [allOfNarrowEx, anyABC, anyACD, validate, goAllOf, goAnyOf, jsStrictEq, jstr]

theorem allOf_left_fold_witness :
    validate (.vAllOf [.vAny, .vNumber]) (.prim (.num 3)) emptyHeap
      = validate (.vAllOf [.vNumber]) (.prim (.num 3)) emptyHeap
  ∧ validate (.vAllOf [.vNever, .vAny]) (.prim (.num 3)) emptyHeap
      = (emptyHeap, .verr (.expected [] "never"))
  ∧ validate (.vAllOf [.vFn (fun _ => .oerr 5), .vAny]) (.prim (.num 3)) emptyHeap
      = (emptyHeap, .oerr 5) := by
  refine ⟨?_, ?_, ?_⟩
  · exact allOf_left_fold.2.1 .vAny [.vNumber] (.prim (.num 3)) emptyHeap emptyHeap
      (.prim (.num 3)) (by simp [validate])
  · exact allOf_left_fold.2.2.1 .vNever [.vAny] (.prim (.num 3)) emptyHeap emptyHeap
      (.expected [] "never") (by simp [validate])
  · exact allOf_left_fold.2.2.2.1 (.vFn (fun _ => .oerr 5)) [.vAny] (.prim (.num 3))
      emptyHeap emptyHeap 5 (by simp [validate])

/-! ## C10: failed structural validation keeps earlier in-place writes -/

/-- Successful processing of a prefix of an object schema's fields: each field
is validated and its (possibly transformed) result written back in place. -/
def objOkChain : List (String × SchemaV) → Nat → Heap → Option Heap
  | [], _, h => some h
  | (k, s) :: rest, id, h =>
      match validate s (getField h id k) h with
      | (h', .ok v) => objOkChain rest id (setField h' id k v)
      | _ => none

/-- Successful processing of `j` consecutive elements (starting at index `i`)
by the `array` combinator's loop, writing each result back in place. -/
def arrOkChain : SchemaV → Nat → Nat → Nat → Heap → Option Heap
  | _, 0, _, _, h => some h
  | s, j + 1, i, id, h =>
      match validate s (getElem' h id i) h with
      | (h', .ok v) => arrOkChain s j (i + 1) id (setElem h' id i v)
      | _ => none

theorem goFields_append_ok :
    ∀ pre l id h h1, objOkChain pre id h = some h1 →
      goFields (pre ++ l) id h = goFields l id h1 := by
  intro pre
  induction pre with
  | nil =>
    intro l id h h1 hc
    simp [objOkChain] at hc
    subst hc
    simp
  | cons p rest ih =>
    intro l id h h1 hc
    rcases p with ⟨k, s⟩
    simp only [objOkChain] at hc
    rcases hr : validate s (getField h id k) h with ⟨h', r⟩
    rw [hr] at hc
    cases r with
    | ok v =>
      simp only at hc
      simp only [List.cons_append, goFields, hr]
      exact ih l id (setField h' id k v) h1 hc
    | verr e => simp at hc
    | oerr t => simp at hc

theorem goElems_split_ok :
    ∀ j m s i id h h1, arrOkChain s j i id h = some h1 →
      goElems s (j + m) i id h = goElems s m (i + j) id h1 := by
  intro j
  induction j with
  | zero =>
    intro m s i id h h1 hc
    simp [arrOkChain] at hc
    subst hc
    simp
  | succ jj ih =>
    intro m s i id h h1 hc
    simp only [arrOkChain] at hc
    rcases hr : validate s (getElem' h id i) h with ⟨h', r⟩
    rw [hr] at hc
    cases r with
    | ok v =>
      simp only at hc
      have hadd : jj + 1 + m = (jj + m) + 1 := by omega
      rw [hadd]
      simp only [goElems, hr]
      have := ih m s (i + 1) id (setElem h' id i v) h1 hc
      rw [this]
      have : i + 1 + jj = i + (jj + 1) := by omega
      rw [this]
    | verr e => simp at hc
    | oerr t => simp at hc

/-- The schema `{a: map(number(), () => 2), b: number()}`: the first field's
validation transforms its value, the second field's fails on a string. -/
def overwriteSchema : SchemaV :=
  .objS [("a", .vMap .vNumber (fun _ => .ok (.prim (.num 2)))), ("b", .vNumber)]

/-- The input `{a: 1, b: "x"}` at object 0. -/
def overwriteHeap : Heap := ⟨[(0, [("a", .prim (.num 1)), ("b", jstr "x")])], [], 1⟩

/-- `{a: 1, b: "x"}` after the first field was overwritten with its validated
result `2`. -/
def overwrittenHeap : Heap := ⟨[(0, [("a", .prim (.num 2)), ("b", jstr "x")])], [], 1⟩

/-- C10: a failing structural validation is not atomic on its input.  For an
object schema (and likewise for the `array` combinator), if every field
before some failing one validated successfully, the raised error leaves the
heap exactly as the prefix processing wrote it — every earlier key/index has
been overwritten in place with its validated result, and nothing is
restored.  Concretely, `{a: map(number(), () => 2), b: number()}` applied to
`{a: 1, b: "x"}` fails on `b` but leaves `a` overwritten with `2`. -/
theorem structural_failure_not_atomic :
    (∀ pre k s post id h h1 h2 e,
      objOkChain pre id h = some h1 →
      validate s (getField h1 id k) h1 = (h2, .verr e) →
      validate (.objS (pre ++ (k, s) :: post)) (.obj id) h
        = (h2, .verr (e.pushPath (.str k))))
  ∧ (∀ s j m id h h1 h2 e,
      arrOkChain s j 0 id h = some h1 →
      (getArr h id).length = j + (m + 1) →
      validate s (getElem' h1 id j) h1 = (h2, .verr e) →
      validate (.vArray s) (.arr id) h = (h2, .verr (e.pushPath (.idx j))))
  ∧ validate overwriteSchema (.obj 0) overwriteHeap
      = (overwrittenHeap, .verr (.expected [.str "b"] "finite number"))
  ∧ getField overwriteHeap 0 "a" = .prim (.num 1)
  ∧ getField overwrittenHeap 0 "a" = .prim (.num 2) := by
  refine ⟨?_, ?_, ?_, ?_, ?_⟩
  · intro pre k s post id h h1 h2 e hc hv
    simp only [validate]
    rw [goFields_append_ok pre ((k, s) :: post) id h h1 hc]
    simp only [goFields, hv]
  · intro s j m id h h1 h2 e hc hlen hv
    simp only [validate, hlen]
    rw [goElems_split_ok j (m + 1) s 0 id h h1 hc]
    simp only [Nat.zero_add, goElems, hv]
  · simp [validate, goFields, overwriteSchema, overwriteHeap, overwrittenHeap, getField,
      getObjFields, assocFind, setField, assocSet, setFieldList, ErrorInfo.pushPath, jstr]
  · simp [getField, getObjFields, assocFind, overwriteHeap]
  · simp [getField, getObjFields, assocFind, overwrittenHeap]

/-- The input array `[1, "x"]` at id 0. -/
def arrMutHeap : Heap := ⟨[], [(0, [.prim (.num 1), jstr "x"])], 1⟩

/-- `[1, "x"]` after element 0 was overwritten with its transformed result. -/
def arrMutHeap2 : Heap := ⟨[], [(0, [.prim (.num 2), jstr "x"])], 1⟩

theorem structural_failure_not_atomic_witness :
    validate overwriteSchema (.obj 0) overwriteHeap
      = (overwrittenHeap, .verr ((ErrorInfo.expected [] "finite number").pushPath (.str "b")))
  ∧ validate (.vArray (.vMap .vNumber (fun _ => .ok (.prim (.num 2))))) (.arr 0) arrMutHeap
      = (arrMutHeap2, .verr ((ErrorInfo.expected [] "finite number").pushPath (.idx 1))) := by
  constructor
  · have happ := structural_failure_not_atomic.1
      [("a", .vMap .vNumber (fun _ => .ok (.prim (.num 2))))] "b" .vNumber [] 0
      overwriteHeap overwrittenHeap overwrittenHeap (.expected [] "finite number")
      (by simp [objOkChain, validate, overwriteHeap, overwrittenHeap, getField, getObjFields,
        assocFind, setField, assocSet, setFieldList, jstr])
      (by simp [validate, overwrittenHeap, getField, getObjFields, assocFind, jstr])
    simpa [overwriteSchema] using happ
  · exact structural_failure_not_atomic.2.1
      (.vMap .vNumber (fun _ => .ok (.prim (.num 2)))) 1 0 0 arrMutHeap arrMutHeap2
      arrMutHeap2 (.expected [] "finite number")
      (by simp [arrOkChain, validate, arrMutHeap, arrMutHeap2, getElem', getArr, assocFind,
        setElem, assocSet, jstr])
      (by simp [arrMutHeap, getArr, assocFind])
      (by simp [validate, arrMutHeap2, getElem', getArr, assocFind, jstr])

/-! ## C8: record validates value before key; key failures are wrapped -/

/-- Successful processing of a prefix of the keys by `record`'s loop: value
then key validated, the pair written into the fresh object `yid`. -/
def recordOkChain : SchemaV → SchemaV → List String → Nat → Nat → Heap → Option Heap
  | _, _, [], _, _, h => some h
  | ks, vs, k :: rest, xid, yid, h =>
      match validate vs (getField h xid k) h with
      | (h1, .ok v) =>
          match validate ks (.prim (.str k)) h1 with
          | (h2, .ok kv) => recordOkChain ks vs rest xid yid (setField h2 yid (propKey kv) v)
          | _ => none
      | _ => none

theorem goRecord_append_ok :
    ∀ pre l ks vs xid yid h h1, recordOkChain ks vs pre xid yid h = some h1 →
      goRecord ks vs (pre ++ l) xid yid h = goRecord ks vs l xid yid h1 := by
  intro pre
  induction pre with
  | nil =>
    intro l ks vs xid yid h h1 hc
    simp [recordOkChain] at hc
    subst hc
    simp
  | cons k rest ih =>
    intro l ks vs xid yid h h1 hc
    simp only [recordOkChain] at hc
    rcases hr : validate vs (getField h xid k) h with ⟨hh, r⟩
    rw [hr] at hc
    cases r with
    | ok v =>
      simp only at hc
      rcases hr2 : validate ks (.prim (.str k)) hh with ⟨hh2, r2⟩
      rw [hr2] at hc
      cases r2 with
      | ok kv =>
        simp only [List.cons_append, goRecord, hr, hr2]
        exact ih l ks vs xid yid _ h1 hc
      | verr e => simp at hc
      | oerr t => simp at hc
    | verr e => simp at hc
    | oerr t => simp at hc

/-- C8: for every input object and every present key, `record(keySchema,
valueSchema)` validates the associated value first — a value failure is
re-raised with the key appended to its path, whatever the key schema is
(the key schema is not consulted) — and only then validates the key itself,
in the heap state left by the value validation; a key-validation failure is
raised wrapped in a `key`-tagged descriptor whose path is the one-element
list holding the original (untransformed) key. -/
theorem record_value_first_then_key :
    (∀ ks vs id h pre k post h1 h2 e,
      (getObjFields h id).map Prod.fst = pre ++ k :: post →
      recordOkChain ks vs pre id (allocObj h).2 (allocObj h).1 = some h1 →
      validate vs (getField h1 id k) h1 = (h2, .verr e) →
      validate (.vRecord ks vs) (.obj id) h = (h2, .verr (e.pushPath (.str k))))
  ∧ (∀ ks vs id h pre k post h1 h2 v h3 e,
      (getObjFields h id).map Prod.fst = pre ++ k :: post →
      recordOkChain ks vs pre id (allocObj h).2 (allocObj h).1 = some h1 →
      validate vs (getField h1 id k) h1 = (h2, .ok v) →
      validate ks (.prim (.str k)) h2 = (h3, .verr e) →
      validate (.vRecord ks vs) (.obj id) h = (h3, .verr (.key [.str k] e))) := by
  constructor
  · intro ks vs id h pre k post h1 h2 e hkeys hc hv
    simp only [validate, hkeys]
    rw [goRecord_append_ok pre (k :: post) ks vs id (allocObj h).2 (allocObj h).1 h1 hc]
    simp only [goRecord, hv]
  · intro ks vs id h pre k post h1 h2 v h3 e hkeys hc hv hk
    simp only [validate, hkeys]
    rw [goRecord_append_ok pre (k :: post) ks vs id (allocObj h).2 (allocObj h).1 h1 hc]
    simp only [goRecord, hv, hk]

/-- The input `{a: 1}` at object 0. -/
def recHeap : Heap := ⟨[(0, [("a", .prim (.num 1))])], [], 1⟩

/-- The input `{a: "x"}` at object 0. -/
def recHeapStr : Heap := ⟨[(0, [("a", jstr "x")])], [], 1⟩

theorem record_value_first_then_key_witness :
    validate (.vRecord .vNumber .vNumber) (.obj 0) recHeapStr
      = ((allocObj recHeapStr).1,
         .verr ((ErrorInfo.expected [] "finite number").pushPath (.str "a")))
  ∧ validate (.vRecord .vNumber .vNumber) (.obj 0) recHeap
      = ((allocObj recHeap).1,
         .verr (.key [.str "a"] (.expected [] "finite number"))) := by
  constructor
  · exact record_value_first_then_key.1 .vNumber .vNumber 0 recHeapStr [] "a" []
      (allocObj recHeapStr).1 (allocObj recHeapStr).1 (.expected [] "finite number")
      (by simp [recHeapStr, getObjFields, assocFind])
      (by simp [recordOkChain])
      (by simp [validate, recHeapStr, allocObj, getField, getObjFields, assocFind, jstr])
  · exact record_value_first_then_key.2 .vNumber .vNumber 0 recHeap [] "a" []
      (allocObj recHeap).1 (allocObj recHeap).1 (.prim (.num 1)) (allocObj recHeap).1
      (.expected [] "finite number")
      (by simp [recHeap, getObjFields, assocFind])
      (by simp [recordOkChain])
      (by simp [validate, recHeap, allocObj, getField, getObjFields, assocFind])
      (by simp [validate])

/-! ## Association list and heap-write lemmas -/

theorem assocSet_none {κ α : Type} [DecidableEq κ] :
    ∀ (l : List (κ × α)) (k : κ) (d : α), assocFind l k = none → assocSet l k d = l := by
  intro l
  induction l with
  | nil => intro k d _; rfl
  | cons p rest ih =>
    intro k d hf
    rcases p with ⟨k', v'⟩
    simp only [assocFind] at hf
    simp only [assocSet]
    by_cases hk : k' = k
    · rw [if_pos hk] at hf; simp at hf
    · rw [if_neg hk] at hf
      rw [if_neg hk, ih k d hf]

theorem assocSet_self {κ α : Type} [DecidableEq κ] :
    ∀ (l : List (κ × α)) (k : κ) (d : α), assocFind l k = some d → assocSet l k d = l := by
  intro l
  induction l with
  | nil => intro k d hf; simp [assocFind] at hf
  | cons p rest ih =>
    intro k d hf
    rcases p with ⟨k', v'⟩
    simp only [assocFind] at hf
    simp only [assocSet]
    by_cases hk : k' = k
    · rw [if_pos hk] at hf
      simp only [Option.some.injEq] at hf
      rw [if_pos hk, hf]
    · rw [if_neg hk] at hf
      rw [if_neg hk, ih k d hf]

theorem assocFind_assocSet_ne {κ α : Type} [DecidableEq κ] :
    ∀ (l : List (κ × α)) (k j : κ) (d : α), j ≠ k →
      assocFind (assocSet l k d) j = assocFind l j := by
  intro l
  induction l with
  | nil => intro k j d _; rfl
  | cons p rest ih =>
    intro k j d hj
    rcases p with ⟨k', v'⟩
    simp only [assocSet]
    by_cases hk : k' = k
    · rw [if_pos hk]
      simp only [assocFind]
      rw [if_neg (by rw [hk]; exact fun hc => hj hc.symm), if_neg (by rw [hk]; exact fun hc => hj hc.symm)]
    · rw [if_neg hk]
      simp only [assocFind]
      by_cases hjk : k' = j
      · rw [if_pos hjk, if_pos hjk]
      · rw [if_neg hjk, if_neg hjk, ih k j d hj]

theorem assocFind_assocSet_self {κ α : Type} [DecidableEq κ] :
    ∀ (l : List (κ × α)) (k : κ) (d : α), (assocFind l k).isSome →
      assocFind (assocSet l k d) k = some d := by
  intro l
  induction l with
  | nil => intro k d hf; simp [assocFind] at hf
  | cons p rest ih =>
    intro k d hf
    rcases p with ⟨k', v'⟩
    simp only [assocFind] at hf
    simp only [assocSet]
    by_cases hk : k' = k
    · rw [if_pos hk]
      simp only [assocFind]
      rw [if_pos hk]
    · rw [if_neg hk]
      simp only [assocFind]
      rw [if_neg hk]
      rw [if_neg hk] at hf
      exact ih k d hf

theorem assocSet_map_fst {κ α : Type} [DecidableEq κ] :
    ∀ (l : List (κ × α)) (k : κ) (d : α),
      (assocSet l k d).map Prod.fst = l.map Prod.fst := by
  intro l
  induction l with
  | nil => intro k d; rfl
  | cons p rest ih =>
    intro k d
    rcases p with ⟨k', v'⟩
    simp only [assocSet]
    by_cases hk : k' = k
    · rw [if_pos hk]; simp
    · rw [if_neg hk]; simp [ih]

theorem setFieldList_self :
    ∀ (fs : List (String × JSVal)) (k : String) (v : JSVal),
      assocFind fs k = some v → setFieldList fs k v = fs := by
  intro fs
  induction fs with
  | nil => intro k v hf; simp [assocFind] at hf
  | cons p rest ih =>
    intro k v hf
    rcases p with ⟨k', v'⟩
    simp only [assocFind] at hf
    simp only [setFieldList]
    by_cases hk : k' = k
    · rw [if_pos hk] at hf
      simp only [Option.some.injEq] at hf
      rw [if_pos hk, hf]
    · rw [if_neg hk] at hf
      rw [if_neg hk, ih k v hf]

theorem setFieldList_absent :
    ∀ (fs : List (String × JSVal)) (k : String) (v : JSVal),
      assocFind fs k = none → setFieldList fs k v = fs ++ [(k, v)] := by
  intro fs
  induction fs with
  | nil => intro k v _; rfl
  | cons p rest ih =>
    intro k v hf
    rcases p with ⟨k', v'⟩
    simp only [assocFind] at hf
    simp only [setFieldList]
    by_cases hk : k' = k
    · rw [if_pos hk] at hf; simp at hf
    · rw [if_neg hk] at hf
      rw [if_neg hk, ih k v hf]
      simp

theorem assocFind_append_of_none {κ α : Type} [DecidableEq κ] :
    ∀ (l1 l2 : List (κ × α)) (k : κ), assocFind l1 k = none →
      assocFind (l1 ++ l2) k = assocFind l2 k := by
  intro l1
  induction l1 with
  | nil => intro l2 k _; rfl
  | cons p rest ih =>
    intro l2 k hf
    rcases p with ⟨k', v'⟩
    simp only [assocFind] at hf
    simp only [List.cons_append, assocFind]
    by_cases hk : k' = k
    · rw [if_pos hk] at hf; simp at hf
    · rw [if_neg hk] at hf
      rw [if_neg hk, List.append_eq, ih l2 k hf]

theorem assocFind_append_of_some {κ α : Type} [DecidableEq κ] :
    ∀ (l1 l2 : List (κ × α)) (k : κ) (d : α), assocFind l1 k = some d →
      assocFind (l1 ++ l2) k = some d := by
  intro l1
  induction l1 with
  | nil => intro l2 k d hf; simp [assocFind] at hf
  | cons p rest ih =>
    intro l2 k d hf
    rcases p with ⟨k', v'⟩
    simp only [assocFind] at hf
    simp only [List.cons_append, assocFind]
    by_cases hk : k' = k
    · rw [if_pos hk] at hf
      rw [if_pos hk]
      exact hf
    · rw [if_neg hk] at hf
      rw [if_neg hk, List.append_eq, ih l2 k d hf]

theorem list_set_getD_self :
    ∀ (l : List JSVal) (i : Nat) (d : JSVal), l.set i (l.getD i d) = l := by
  intro l
  induction l with
  | nil => intro i d; rfl
  | cons a rest ih =>
    intro i d
    cases i with
    | zero => simp [List.set, List.getD]
    | succ j =>
      simp only [List.set, List.getD_cons_succ]
      rw [ih j d]

/-! ## Observational heap equivalence -/

/-- Two heaps are observationally equivalent when every object-field read and
every array read agree.  (Writing `undefined` over an absent property creates
the property without changing any read, so the heaps before and after such a
write are equivalent but not equal.) -/
def HeapEquiv (h h' : Heap) : Prop :=
  (∀ id k, getField h id k = getField h' id k) ∧ (∀ id, getArr h id = getArr h' id)

theorem HeapEquiv.refl (h : Heap) : HeapEquiv h h :=
  ⟨fun _ _ => rfl, fun _ => rfl⟩

theorem HeapEquiv.symm {h h' : Heap} (he : HeapEquiv h h') : HeapEquiv h' h :=
  ⟨fun i k => (he.1 i k).symm, fun i => (he.2 i).symm⟩

theorem HeapEquiv.trans {a b c : Heap} (h1 : HeapEquiv a b) (h2 : HeapEquiv b c) :
    HeapEquiv a c :=
  ⟨fun i k => (h1.1 i k).trans (h2.1 i k), fun i => (h1.2 i).trans (h2.2 i)⟩

/-- Writing back the value an array slot already holds leaves the heap equal. -/
theorem setElem_self (h : Heap) (id i : Nat) (v : JSVal)
    (hv : getElem' h id i = v) : setElem h id i v = h := by
  rcases h with ⟨objs, arrs, next⟩
  unfold getElem' getArr at hv
  unfold setElem getArr
  simp only at hv ⊢
  rcases hfa : assocFind arrs id with _ | l
  · simp only [Option.getD_none] at hv ⊢
    have hnil : (([] : List JSVal)).set i v = [] := by cases i <;> rfl
    rw [hnil, assocSet_none arrs id [] hfa]
  · rw [hfa] at hv
    simp only [Option.getD_some] at hv
    simp only [Option.getD_some]
    rw [← hv, list_set_getD_self, assocSet_self arrs id l hfa]

/-- The arrays are untouched by an object-field write. -/
theorem getArr_setField (h : Heap) (id : Nat) (k : String) (v : JSVal) (i : Nat) :
    getArr (setField h id k v) i = getArr h i := rfl

/-- Reads of other objects are untouched by an object-field write. -/
theorem getField_setField_ne (h : Heap) (id : Nat) (k : String) (v : JSVal)
    (i : Nat) (k' : String) (hi : i ≠ id) :
    getField (setField h id k v) i k' = getField h i k' := by
  unfold getField getObjFields setField
  simp only
  rw [assocFind_assocSet_ne h.objs id i _ hi]

/-- Reading the field just written (on a live object). -/
theorem getField_setField_self (h : Heap) (id : Nat) (k : String) (v : JSVal)
    (hlive : (assocFind h.objs id).isSome) :
    getField (setField h id k v) id k = v := by
  unfold getField setField getObjFields
  simp only
  rw [assocFind_assocSet_self h.objs id _ hlive]
  simp only [Option.getD_some]
  rcases hfk : assocFind ((assocFind h.objs id).getD []) k with _ | w
  · rw [setFieldList_absent _ k v hfk, assocFind_append_of_none _ _ k hfk]
    simp [assocFind]
  · have : ∀ fs : List (String × JSVal), assocFind fs k = some w →
        assocFind (setFieldList fs k v) k = some v := by
      intro fs
      induction fs with
      | nil => intro hc; simp [assocFind] at hc
      | cons p rest ih =>
        intro hc
        rcases p with ⟨k', v'⟩
        simp only [assocFind] at hc
        simp only [setFieldList]
        by_cases hk : k' = k
        · rw [if_pos hk]
          simp only [assocFind]
          rw [if_pos hk]
        · rw [if_neg hk] at hc
          rw [if_neg hk]
          simp only [assocFind]
          rw [if_neg hk]
          exact ih hc
    rw [this _ hfk]
    simp

/-- Reads of other fields of the same object are untouched by a field write. -/
theorem getField_setField_other (h : Heap) (id : Nat) (k k' : String) (v : JSVal)
    (hk : k' ≠ k) : getField (setField h id k v) id k' = getField h id k' := by
  unfold getField getObjFields setField
  simp only
  rcases hoid : assocFind h.objs id with _ | fs
  · rw [assocSet_none h.objs id _ hoid, hoid]
  · have hobj : getObjFields h id = fs := by unfold getObjFields; rw [hoid]; rfl
    rw [assocFind_assocSet_self h.objs id _ (by rw [hoid]; rfl)]
    simp only [Option.getD_some]
    rw [hobj]
    have : ∀ fs : List (String × JSVal),
        assocFind (setFieldList fs k v) k' = assocFind fs k' := by
      intro l
      induction l with
      | nil =>
        simp only [setFieldList, assocFind]
        rw [if_neg (fun hc => hk hc.symm)]
      | cons p rest ih =>
        rcases p with ⟨k2, v2⟩
        simp only [setFieldList]
        by_cases h2 : k2 = k
        · rw [if_pos h2]
          simp only [assocFind]
          rw [if_neg (by rw [h2]; exact fun hc => hk hc.symm),
            if_neg (by rw [h2]; exact fun hc => hk hc.symm)]
        · rw [if_neg h2]
          simp only [assocFind]
          by_cases h3 : k2 = k'
          · rw [if_pos h3, if_pos h3]
          · rw [if_neg h3, if_neg h3, ih]
    rw [this]

/-- Writing back the value a field read already yields keeps every read:
either the field is present (the write is the identity on the heap) or the
read was `undefined` and the write creates the property with `undefined`. -/
theorem setField_equiv (h : Heap) (id : Nat) (k : String) (v : JSVal)
    (hv : getField h id k = v) : HeapEquiv (setField h id k v) h := by
  refine ⟨?_, fun i => getArr_setField h id k v i⟩
  intro i k'
  by_cases hi : i = id
  · subst hi
    by_cases hk : k' = k
    · subst hk
      rcases hoid : assocFind h.objs i with _ | fs
      · unfold setField getObjFields
        rw [hoid]
        simp only [Option.getD_none]
        rw [assocSet_none h.objs i _ hoid]
      · rw [getField_setField_self h i k' v (by rw [hoid]; rfl), hv]
    · exact getField_setField_other h i k k' v hk
  · exact getField_setField_ne h id k v i k' hi

/-- Object ids (in order), the arrays, and the allocation counter are
preserved by an object-field write. -/
theorem setField_shape (h : Heap) (id : Nat) (k : String) (v : JSVal) :
    (setField h id k v).objs.map Prod.fst = h.objs.map Prod.fst ∧
    (setField h id k v).arrs = h.arrs ∧ (setField h id k v).next = h.next := by
  unfold setField
  exact ⟨assocSet_map_fst h.objs id _, rfl, rfl⟩

/-! ## Pure (transformation-free) schemas and their run behaviour -/

/-- Observational equivalence plus preserved heap shape: same reads, same
object ids in the same order, equal arrays, same allocation counter. -/
def HeapSame (h' h : Heap) : Prop :=
  HeapEquiv h' h ∧ h'.objs.map Prod.fst = h.objs.map Prod.fst ∧
    h'.arrs = h.arrs ∧ h'.next = h.next

theorem HeapSame.same_refl (h : Heap) : HeapSame h h :=
  ⟨HeapEquiv.refl h, rfl, rfl, rfl⟩

theorem HeapSame.same_trans {a b c : Heap} (h1 : HeapSame a b) (h2 : HeapSame b c) :
    HeapSame a c :=
  ⟨h1.1.trans h2.1, h1.2.1.trans h2.2.1, h1.2.2.1.trans h2.2.2.1, h1.2.2.2.trans h2.2.2.2⟩

theorem HeapSame.of_eq {a b : Heap} (h : a = b) : HeapSame a b := by
  subst h; exact HeapSame.same_refl a

theorem setField_same (h : Heap) (id : Nat) (k : String) (v : JSVal)
    (hv : getField h id k = v) : HeapSame (setField h id k v) h :=
  ⟨setField_equiv h id k v hv, (setField_shape h id k v).1,
    (setField_shape h id k v).2.1, (setField_shape h id k v).2.2⟩

/-- The transformation-free, heap-shape-preserving schema fragment: literals,
scalar leaf validators, object/array shapes, the `array` combinator, `struct`
and the logical combinators.  `map`/`filter`, arbitrary validator functions,
`record` (fresh allocation) and `maybe` (default substitution) are excluded:
each can return something other than its input. -/
inductive PureS : SchemaV → Prop
  | lit (p : Prim) : PureS (.lit p)
  | vString (pat : Option StrPat) : PureS (.vString pat)
  | vNumber : PureS .vNumber
  | vInteger : PureS .vInteger
  | vBoolean : PureS .vBoolean
  | vAny : PureS .vAny
  | vNever : PureS .vNever
  | objS (fs : List (String × SchemaV)) (hf : ∀ p ∈ fs, PureS p.2) : PureS (.objS fs)
  | arrS (es : List SchemaV) (he : ∀ s ∈ es, PureS s) : PureS (.arrS es)
  | vArray (s : SchemaV) (hs : PureS s) : PureS (.vArray s)
  | vStruct (s : SchemaV) (hs : PureS s) : PureS (.vStruct s)
  | vAllOf (ss : List SchemaV) (hs : ∀ s ∈ ss, PureS s) : PureS (.vAllOf ss)
  | vAnyOf (ss : List SchemaV) (hs : ∀ s ∈ ss, PureS s) : PureS (.vAnyOf ss)
  | vOneOf (ss : List SchemaV) (hs : ∀ s ∈ ss, PureS s) : PureS (.vOneOf ss)

/-- What running a pure schema's validator does: the heap keeps all its reads
and its shape, and a successful result is the input value itself. -/
def PureRun (s : SchemaV) : Prop :=
  ∀ x h h' r, validate s x h = (h', r) →
    HeapSame h' h ∧ (∀ v, r = .ok v → v = x)

theorem goFields_pure :
    ∀ fs, (∀ p ∈ fs, PureRun p.2) →
      ∀ id h h' r, goFields fs id h = (h', r) → HeapSame h' h := by
  intro fs
  induction fs with
  | nil =>
    intro _ id h h' r hg
    simp only [goFields, Prod.mk.injEq] at hg
    obtain ⟨rfl, _⟩ := hg
    exact HeapSame.same_refl h
  | cons p rest ih =>
    intro hIH id h h' r hg
    rcases p with ⟨k, s⟩
    simp only [goFields] at hg
    rcases hr : validate s (getField h id k) h with ⟨h1, r1⟩
    rw [hr] at hg
    have hrun := hIH (k, s) (by simp) (getField h id k) h h1 r1 hr
    cases r1 with
    | ok v =>
      have hv : v = getField h id k := hrun.2 v rfl
      have hread : getField h1 id k = v := by rw [hrun.1.1.1 id k]; exact hv.symm
      have hsf : HeapSame (setField h1 id k v) h1 := setField_same h1 id k v hread
      have hrest := ih (fun q hq => hIH q (by simp [hq])) id (setField h1 id k v) h' r hg
      exact HeapSame.same_trans hrest (HeapSame.same_trans hsf hrun.1)
    | verr e =>
      simp only [Prod.mk.injEq] at hg
      obtain ⟨rfl, _⟩ := hg
      exact hrun.1
    | oerr t =>
      simp only [Prod.mk.injEq] at hg
      obtain ⟨rfl, _⟩ := hg
      exact hrun.1

theorem goTuple_pure :
    ∀ es, (∀ s ∈ es, PureRun s) →
      ∀ i id h h' r, goTuple es i id h = (h', r) → HeapSame h' h := by
  intro es
  induction es with
  | nil =>
    intro _ i id h h' r hg
    simp only [goTuple, Prod.mk.injEq] at hg
    obtain ⟨rfl, _⟩ := hg
    exact HeapSame.same_refl h
  | cons s rest ih =>
    intro hIH i id h h' r hg
    simp only [goTuple] at hg
    rcases hr : validate s (getElem' h id i) h with ⟨h1, r1⟩
    rw [hr] at hg
    have hrun := hIH s (by simp) (getElem' h id i) h h1 r1 hr
    cases r1 with
    | ok v =>
      have hv : v = getElem' h id i := hrun.2 v rfl
      have hread : getElem' h1 id i = v := by
        unfold getElem'
        rw [hrun.1.1.2 id]
        exact hv.symm
      have hse : setElem h1 id i v = h1 := setElem_self h1 id i v hread
      have hrest := ih (fun q hq => hIH q (by simp [hq])) (i + 1) id (setElem h1 id i v) h' r hg
      exact HeapSame.same_trans hrest (HeapSame.same_trans (HeapSame.of_eq hse) hrun.1)
    | verr e =>
      simp only [Prod.mk.injEq] at hg
      obtain ⟨rfl, _⟩ := hg
      exact hrun.1
    | oerr t =>
      simp only [Prod.mk.injEq] at hg
      obtain ⟨rfl, _⟩ := hg
      exact hrun.1

theorem goElems_pure :
    ∀ n s, PureRun s →
      ∀ i id h h' r, goElems s n i id h = (h', r) → HeapSame h' h := by
  intro n
  induction n with
  | zero =>
    intro s _ i id h h' r hg
    simp only [goElems, Prod.mk.injEq] at hg
    obtain ⟨rfl, _⟩ := hg
    exact HeapSame.same_refl h
  | succ m ih =>
    intro s hIH i id h h' r hg
    simp only [goElems] at hg
    rcases hr : validate s (getElem' h id i) h with ⟨h1, r1⟩
    rw [hr] at hg
    have hrun := hIH (getElem' h id i) h h1 r1 hr
    cases r1 with
    | ok v =>
      have hv : v = getElem' h id i := hrun.2 v rfl
      have hread : getElem' h1 id i = v := by
        unfold getElem'
        rw [hrun.1.1.2 id]
        exact hv.symm
      have hse : setElem h1 id i v = h1 := setElem_self h1 id i v hread
      have hrest := ih s hIH (i + 1) id (setElem h1 id i v) h' r hg
      exact HeapSame.same_trans hrest (HeapSame.same_trans (HeapSame.of_eq hse) hrun.1)
    | verr e =>
      simp only [Prod.mk.injEq] at hg
      obtain ⟨rfl, _⟩ := hg
      exact hrun.1
    | oerr t =>
      simp only [Prod.mk.injEq] at hg
      obtain ⟨rfl, _⟩ := hg
      exact hrun.1

theorem goAllOf_pure :
    ∀ ss, (∀ s ∈ ss, PureRun s) →
      ∀ x h h' r, goAllOf ss x h = (h', r) →
        HeapSame h' h ∧ (∀ v, r = .ok v → v = x) := by
  intro ss
  induction ss with
  | nil =>
    intro _ x h h' r hg
    simp only [goAllOf, Prod.mk.injEq] at hg
    obtain ⟨rfl, rfl⟩ := hg
    exact ⟨HeapSame.same_refl h, fun v hveq => by cases hveq; rfl⟩
  | cons s rest ih =>
    intro hIH x h h' r hg
    simp only [goAllOf] at hg
    rcases hr : validate s x h with ⟨h1, r1⟩
    rw [hr] at hg
    have hrun := hIH s (by simp) x h h1 r1 hr
    cases r1 with
    | ok v =>
      have hv : v = x := hrun.2 v rfl
      subst hv
      have hrest := ih (fun q hq => hIH q (by simp [hq])) v h1 h' r hg
      exact ⟨HeapSame.same_trans hrest.1 hrun.1, hrest.2⟩
    | verr e =>
      simp only [Prod.mk.injEq] at hg
      obtain ⟨rfl, rfl⟩ := hg
      exact ⟨hrun.1, fun v hveq => nomatch hveq⟩
    | oerr t =>
      simp only [Prod.mk.injEq] at hg
      obtain ⟨rfl, rfl⟩ := hg
      exact ⟨hrun.1, fun v hveq => nomatch hveq⟩

theorem goAnyOf_pure :
    ∀ ss, (∀ s ∈ ss, PureRun s) →
      ∀ x acc h h' r, goAnyOf ss x acc h = (h', r) →
        HeapSame h' h ∧ (∀ v, r = .ok v → v = x) := by
  intro ss
  induction ss with
  | nil =>
    intro _ x acc h h' r hg
    simp only [goAnyOf, Prod.mk.injEq] at hg
    obtain ⟨rfl, rfl⟩ := hg
    exact ⟨HeapSame.same_refl h, fun v hveq => nomatch hveq⟩
  | cons s rest ih =>
    intro hIH x acc h h' r hg
    simp only [goAnyOf] at hg
    rcases hr : validate s x h with ⟨h1, r1⟩
    rw [hr] at hg
    have hrun := hIH s (by simp) x h h1 r1 hr
    cases r1 with
    | ok v =>
      simp only [Prod.mk.injEq] at hg
      obtain ⟨rfl, rfl⟩ := hg
      exact ⟨hrun.1, fun w hveq => hrun.2 w hveq⟩
    | verr e =>
      have hrest := ih (fun q hq => hIH q (by simp [hq])) x (acc ++ [e]) h1 h' r hg
      exact ⟨HeapSame.same_trans hrest.1 hrun.1, hrest.2⟩
    | oerr t =>
      simp only [Prod.mk.injEq] at hg
      obtain ⟨rfl, rfl⟩ := hg
      exact ⟨hrun.1, fun v hveq => nomatch hveq⟩

theorem goOneOf_pure :
    ∀ ss, (∀ s ∈ ss, PureRun s) →
      ∀ x c res acc h h' r, goOneOf ss x c res acc h = (h', r) →
        HeapSame h' h ∧ (∀ v, r = .ok v → (v = x ∨ v = res)) := by
  intro ss
  induction ss with
  | nil =>
    intro _ x c res acc h h' r hg
    simp only [goOneOf] at hg
    by_cases hc : c = 0
    · rw [if_pos hc] at hg
      simp only [Prod.mk.injEq] at hg
      obtain ⟨rfl, rfl⟩ := hg
      exact ⟨HeapSame.same_refl h, fun v hveq => nomatch hveq⟩
    · rw [if_neg hc] at hg
      simp only [Prod.mk.injEq] at hg
      obtain ⟨rfl, rfl⟩ := hg
      exact ⟨HeapSame.same_refl h, fun v hveq => by cases hveq; exact Or.inr rfl⟩
  | cons s rest ih =>
    intro hIH x c res acc h h' r hg
    simp only [goOneOf] at hg
    rcases hr : validate s x h with ⟨h1, r1⟩
    rw [hr] at hg
    have hrun := hIH s (by simp) x h h1 r1 hr
    cases r1 with
    | ok w =>
      have hw : w = x := hrun.2 w rfl
      simp only at hg
      by_cases hc : c + 1 > 1
      · rw [if_pos hc] at hg
        simp only [Prod.mk.injEq] at hg
        obtain ⟨rfl, rfl⟩ := hg
        exact ⟨hrun.1, fun v hveq => nomatch hveq⟩
      · rw [if_neg hc] at hg
        have hrest := ih (fun q hq => hIH q (by simp [hq])) x (c + 1) w acc h1 h' r hg
        refine ⟨HeapSame.same_trans hrest.1 hrun.1, fun v hveq => ?_⟩
        rcases hrest.2 v hveq with hvx | hvw
        · exact Or.inl hvx
        · exact Or.inl (hvw.trans hw)
    | verr e =>
      have hrest := ih (fun q hq => hIH q (by simp [hq])) x c res (acc ++ [e]) h1 h' r hg
      exact ⟨HeapSame.same_trans hrest.1 hrun.1, hrest.2⟩
    | oerr t =>
      simp only [Prod.mk.injEq] at hg
      obtain ⟨rfl, rfl⟩ := hg
      exact ⟨hrun.1, fun v hveq => nomatch hveq⟩

/-- Every pure schema's validator keeps the heap (observationally and in
shape) and returns its input on success. -/
theorem pureS_run : ∀ S, PureS S → PureRun S := by
  intro S hp
  induction hp with
  | lit p =>
    intro x h h' r hv
    rw [validate.eq_def] at hv
    simp only at hv
    split at hv <;>
      (simp only [Prod.mk.injEq] at hv
       obtain ⟨rfl, rfl⟩ := hv
       refine ⟨HeapSame.same_refl h, fun v hveq => ?_⟩)
    · cases hveq; rfl
    · exact nomatch hveq
  | vString pat =>
    intro x h h' r hv
    rw [validate.eq_def] at hv
    simp only at hv
    split at hv <;> split at hv <;>
      first
      | (simp only [Prod.mk.injEq] at hv
         obtain ⟨rfl, rfl⟩ := hv
         refine ⟨HeapSame.same_refl h, fun v hveq => ?_⟩
         first
         | (cases hveq; rfl)
         | exact nomatch hveq)
      | (split at hv <;>
          (simp only [Prod.mk.injEq] at hv
           obtain ⟨rfl, rfl⟩ := hv
           refine ⟨HeapSame.same_refl h, fun v hveq => ?_⟩
           first
           | (cases hveq; rfl)
           | exact nomatch hveq))
  | vNumber =>
    intro x h h' r hv
    rw [validate.eq_def] at hv
    simp only at hv
    split at hv <;>
      (simp only [Prod.mk.injEq] at hv
       obtain ⟨rfl, rfl⟩ := hv
       refine ⟨HeapSame.same_refl h, fun v hveq => ?_⟩)
    · cases hveq; rfl
    · exact nomatch hveq
  | vInteger =>
    intro x h h' r hv
    rw [validate.eq_def] at hv
    simp only at hv
    split at hv
    · split at hv <;>
        (simp only [Prod.mk.injEq] at hv
         obtain ⟨rfl, rfl⟩ := hv
         refine ⟨HeapSame.same_refl h, fun v hveq => ?_⟩)
      · cases hveq; rfl
      · exact nomatch hveq
    · simp only [Prod.mk.injEq] at hv
      obtain ⟨rfl, rfl⟩ := hv
      exact ⟨HeapSame.same_refl h, fun v hveq => nomatch hveq⟩
  | vBoolean =>
    intro x h h' r hv
    rw [validate.eq_def] at hv
    simp only at hv
    split at hv <;>
      (simp only [Prod.mk.injEq] at hv
       obtain ⟨rfl, rfl⟩ := hv
       refine ⟨HeapSame.same_refl h, fun v hveq => ?_⟩)
    · cases hveq; rfl
    · exact nomatch hveq
  | vAny =>
    intro x h h' r hv
    simp only [validate, Prod.mk.injEq] at hv
    obtain ⟨rfl, rfl⟩ := hv
    exact ⟨HeapSame.same_refl h, fun v hveq => by cases hveq; rfl⟩
  | vNever =>
    intro x h h' r hv
    simp only [validate, Prod.mk.injEq] at hv
    obtain ⟨rfl, rfl⟩ := hv
    exact ⟨HeapSame.same_refl h, fun v hveq => nomatch hveq⟩
  | objS fs hf ih =>
    intro x h h' r hv
    rw [validate.eq_def] at hv
    simp only at hv
    split at hv
    · rename_i id
      refine ⟨goFields_pure fs ih id h h' r hv, fun v hveq => ?_⟩
      subst hveq
      exact goFields_ok_val fs id h h' v hv
    · simp only [Prod.mk.injEq] at hv
      obtain ⟨rfl, rfl⟩ := hv
      exact ⟨HeapSame.same_refl h, fun v hveq => nomatch hveq⟩
  | arrS es he ih =>
    intro x h h' r hv
    rw [validate.eq_def] at hv
    simp only at hv
    split at hv
    · rename_i id
      split at hv
      · refine ⟨goTuple_pure es ih 0 id h h' r hv, fun v hveq => ?_⟩
        subst hveq
        exact goTuple_ok_val es 0 id h h' v hv
      · simp only [Prod.mk.injEq] at hv
        obtain ⟨rfl, rfl⟩ := hv
        exact ⟨HeapSame.same_refl h, fun v hveq => nomatch hveq⟩
    · simp only [Prod.mk.injEq] at hv
      obtain ⟨rfl, rfl⟩ := hv
      exact ⟨HeapSame.same_refl h, fun v hveq => nomatch hveq⟩
  | vArray s hs ih =>
    intro x h h' r hv
    rw [validate.eq_def] at hv
    simp only at hv
    split at hv
    · rename_i id
      refine ⟨goElems_pure (getArr h id).length s ih 0 id h h' r hv, fun v hveq => ?_⟩
      subst hveq
      exact goElems_ok_val (getArr h id).length s 0 id h h' v hv
    · simp only [Prod.mk.injEq] at hv
      obtain ⟨rfl, rfl⟩ := hv
      exact ⟨HeapSame.same_refl h, fun v hveq => nomatch hveq⟩
  | vStruct s hs ih =>
    intro x h h' r hv
    rw [validate.eq_def] at hv
    simp only at hv
    exact ih x h h' r hv
  | vAllOf ss hs ih =>
    intro x h h' r hv
    rw [validate.eq_def] at hv
    simp only at hv
    exact goAllOf_pure ss ih x h h' r hv
  | vAnyOf ss hs ih =>
    intro x h h' r hv
    rw [validate.eq_def] at hv
    simp only at hv
    exact goAnyOf_pure ss ih x [] h h' r hv
  | vOneOf ss hs ih =>
    intro x h h' r hv
    rw [validate.eq_def] at hv
    simp only at hv
    have hrun := goOneOf_pure ss ih x 0 x [] h h' r hv
    refine ⟨hrun.1, fun v hveq => ?_⟩
    rcases hrun.2 v hveq with hvx | hvx <;> exact hvx

/-! ## Congruence: equivalent heaps validate identically -/

/-- Validating in an observationally equivalent heap yields the identical
result, with equivalent final heaps. -/
def CongrRun (s : SchemaV) : Prop :=
  ∀ x h1 h2 h1' r, HeapEquiv h1 h2 → validate s x h1 = (h1', r) →
    ∃ h2', validate s x h2 = (h2', r) ∧ HeapEquiv h1' h2'

theorem goFields_congr :
    ∀ fs, (∀ p ∈ fs, PureRun p.2) → (∀ p ∈ fs, CongrRun p.2) →
      ∀ id h1 h2 h1' r, HeapEquiv h1 h2 → goFields fs id h1 = (h1', r) →
        ∃ h2', goFields fs id h2 = (h2', r) ∧ HeapEquiv h1' h2' := by
  intro fs
  induction fs with
  | nil =>
    intro _ _ id h1 h2 h1' r he hg
    simp only [goFields, Prod.mk.injEq] at hg
    obtain ⟨rfl, rfl⟩ := hg
    exact ⟨h2, by simp [goFields], he⟩
  | cons p rest ih =>
    intro hP hC id h1 h2 h1' r he hg
    rcases p with ⟨k, s⟩
    simp only [goFields] at hg
    rcases hr : validate s (getField h1 id k) h1 with ⟨ha, r1⟩
    rw [hr] at hg
    have hgf : getField h2 id k = getField h1 id k := (he.1 id k).symm
    rcases hC (k, s) (by simp) (getField h1 id k) h1 h2 ha r1 he hr with ⟨hb, hr2, hab⟩
    cases r1 with
    | ok v =>
      have hps := hP (k, s) (by simp) (getField h1 id k) h1 ha (.ok v) hr
      have hv : v = getField h1 id k := hps.2 v rfl
      have hra : getField ha id k = v := by rw [hps.1.1.1 id k]; exact hv.symm
      have hps2 := hP (k, s) (by simp) (getField h1 id k) h2 hb (.ok v) hr2
      have hrb : getField hb id k = v := by
        rw [hps2.1.1.1 id k, hgf]
        exact hv.symm
      have hsa : HeapEquiv (setField ha id k v) ha := setField_equiv ha id k v hra
      have hsb : HeapEquiv (setField hb id k v) hb := setField_equiv hb id k v hrb
      have heq2 : HeapEquiv (setField ha id k v) (setField hb id k v) :=
        (hsa.trans hab).trans hsb.symm
      rcases ih (fun q hq => hP q (by simp [hq])) (fun q hq => hC q (by simp [hq])) id
        (setField ha id k v) (setField hb id k v) h1' r heq2 hg with ⟨h2', hgoal, hfin⟩
      refine ⟨h2', ?_, hfin⟩
      simp only [goFields]
      rw [hgf, hr2]
      exact hgoal
    | verr e =>
      simp only [Prod.mk.injEq] at hg
      obtain ⟨rfl, rfl⟩ := hg
      refine ⟨hb, ?_, hab⟩
      simp only [goFields]
      rw [hgf, hr2]
    | oerr t =>
      simp only [Prod.mk.injEq] at hg
      obtain ⟨rfl, rfl⟩ := hg
      refine ⟨hb, ?_, hab⟩
      simp only [goFields]
      rw [hgf, hr2]

theorem goTuple_congr :
    ∀ es, (∀ s ∈ es, PureRun s) → (∀ s ∈ es, CongrRun s) →
      ∀ i id h1 h2 h1' r, HeapEquiv h1 h2 → goTuple es i id h1 = (h1', r) →
        ∃ h2', goTuple es i id h2 = (h2', r) ∧ HeapEquiv h1' h2' := by
  intro es
  induction es with
  | nil =>
    intro _ _ i id h1 h2 h1' r he hg
    simp only [goTuple, Prod.mk.injEq] at hg
    obtain ⟨rfl, rfl⟩ := hg
    exact ⟨h2, by simp [goTuple], he⟩
  | cons s rest ih =>
    intro hP hC i id h1 h2 h1' r he hg
    simp only [goTuple] at hg
    rcases hr : validate s (getElem' h1 id i) h1 with ⟨ha, r1⟩
    rw [hr] at hg
    have hgf : getElem' h2 id i = getElem' h1 id i := by
      unfold getElem'
      rw [he.2 id]
    rcases hC s (by simp) (getElem' h1 id i) h1 h2 ha r1 he hr with ⟨hb, hr2, hab⟩
    cases r1 with
    | ok v =>
      have hps := hP s (by simp) (getElem' h1 id i) h1 ha (.ok v) hr
      have hv : v = getElem' h1 id i := hps.2 v rfl
      have hra : getElem' ha id i = v := by
        unfold getElem'
        rw [hps.1.1.2 id]
        exact hv.symm
      have hps2 := hP s (by simp) (getElem' h1 id i) h2 hb (.ok v) hr2
      have hrb : getElem' hb id i = v := by
        unfold getElem'
        rw [hps2.1.1.2 id]
        rw [show (getArr h2 id).getD i (JSVal.prim Prim.undef) = getElem' h2 id i from rfl, hgf]
        exact hv.symm
      have hsa : setElem ha id i v = ha := setElem_self ha id i v hra
      have hsb : setElem hb id i v = hb := setElem_self hb id i v hrb
      simp only at hg
      rw [hsa] at hg
      rcases ih (fun q hq => hP q (by simp [hq])) (fun q hq => hC q (by simp [hq])) (i + 1) id
        ha hb h1' r hab hg with ⟨h2', hgoal, hfin⟩
      refine ⟨h2', ?_, hfin⟩
      simp only [goTuple]
      rw [hgf, hr2]
      simp only
      rw [hsb]
      exact hgoal
    | verr e =>
      simp only [Prod.mk.injEq] at hg
      obtain ⟨rfl, rfl⟩ := hg
      refine ⟨hb, ?_, hab⟩
      simp only [goTuple]
      rw [hgf, hr2]
    | oerr t =>
      simp only [Prod.mk.injEq] at hg
      obtain ⟨rfl, rfl⟩ := hg
      refine ⟨hb, ?_, hab⟩
      simp only [goTuple]
      rw [hgf, hr2]

theorem goElems_congr :
    ∀ n s, PureRun s → CongrRun s →
      ∀ i id h1 h2 h1' r, HeapEquiv h1 h2 → goElems s n i id h1 = (h1', r) →
        ∃ h2', goElems s n i id h2 = (h2', r) ∧ HeapEquiv h1' h2' := by
  intro n
  induction n with
  | zero =>
    intro s _ _ i id h1 h2 h1' r he hg
    simp only [goElems, Prod.mk.injEq] at hg
    obtain ⟨rfl, rfl⟩ := hg
    exact ⟨h2, by simp [goElems], he⟩
  | succ m ih =>
    intro s hP hC i id h1 h2 h1' r he hg
    simp only [goElems] at hg
    rcases hr : validate s (getElem' h1 id i) h1 with ⟨ha, r1⟩
    rw [hr] at hg
    have hgf : getElem' h2 id i = getElem' h1 id i := by
      unfold getElem'
      rw [he.2 id]
    rcases hC (getElem' h1 id i) h1 h2 ha r1 he hr with ⟨hb, hr2, hab⟩
    cases r1 with
    | ok v =>
      have hps := hP (getElem' h1 id i) h1 ha (.ok v) hr
      have hv : v = getElem' h1 id i := hps.2 v rfl
      have hra : getElem' ha id i = v := by
        unfold getElem'
        rw [hps.1.1.2 id]
        exact hv.symm
      have hps2 := hP (getElem' h1 id i) h2 hb (.ok v) hr2
      have hrb : getElem' hb id i = v := by
        unfold getElem'
        rw [hps2.1.1.2 id]
        rw [show (getArr h2 id).getD i (JSVal.prim Prim.undef) = getElem' h2 id i from rfl, hgf]
        exact hv.symm
      have hsa : setElem ha id i v = ha := setElem_self ha id i v hra
      have hsb : setElem hb id i v = hb := setElem_self hb id i v hrb
      simp only at hg
      rw [hsa] at hg
      rcases ih s hP hC (i + 1) id ha hb h1' r hab hg with ⟨h2', hgoal, hfin⟩
      refine ⟨h2', ?_, hfin⟩
      simp only [goElems]
      rw [hgf, hr2]
      simp only
      rw [hsb]
      exact hgoal
    | verr e =>
      simp only [Prod.mk.injEq] at hg
      obtain ⟨rfl, rfl⟩ := hg
      refine ⟨hb, ?_, hab⟩
      simp only [goElems]
      rw [hgf, hr2]
    | oerr t =>
      simp only [Prod.mk.injEq] at hg
      obtain ⟨rfl, rfl⟩ := hg
      refine ⟨hb, ?_, hab⟩
      simp only [goElems]
      rw [hgf, hr2]

theorem goAllOf_congr :
    ∀ ss, (∀ s ∈ ss, CongrRun s) →
      ∀ x h1 h2 h1' r, HeapEquiv h1 h2 → goAllOf ss x h1 = (h1', r) →
        ∃ h2', goAllOf ss x h2 = (h2', r) ∧ HeapEquiv h1' h2' := by
  intro ss
  induction ss with
  | nil =>
    intro _ x h1 h2 h1' r he hg
    simp only [goAllOf, Prod.mk.injEq] at hg
    obtain ⟨rfl, rfl⟩ := hg
    exact ⟨h2, by simp [goAllOf], he⟩
  | cons s rest ih =>
    intro hC x h1 h2 h1' r he hg
    simp only [goAllOf] at hg
    rcases hr : validate s x h1 with ⟨ha, r1⟩
    rw [hr] at hg
    rcases hC s (by simp) x h1 h2 ha r1 he hr with ⟨hb, hr2, hab⟩
    cases r1 with
    | ok v =>
      rcases ih (fun q hq => hC q (by simp [hq])) v ha hb h1' r hab hg with ⟨h2', hgoal, hfin⟩
      refine ⟨h2', ?_, hfin⟩
      simp only [goAllOf]
      rw [hr2]
      exact hgoal
    | verr e =>
      simp only [Prod.mk.injEq] at hg
      obtain ⟨rfl, rfl⟩ := hg
      refine ⟨hb, ?_, hab⟩
      simp only [goAllOf]
      rw [hr2]
    | oerr t =>
      simp only [Prod.mk.injEq] at hg
      obtain ⟨rfl, rfl⟩ := hg
      refine ⟨hb, ?_, hab⟩
      simp only [goAllOf]
      rw [hr2]

theorem goAnyOf_congr :
    ∀ ss, (∀ s ∈ ss, CongrRun s) →
      ∀ x acc h1 h2 h1' r, HeapEquiv h1 h2 → goAnyOf ss x acc h1 = (h1', r) →
        ∃ h2', goAnyOf ss x acc h2 = (h2', r) ∧ HeapEquiv h1' h2' := by
  intro ss
  induction ss with
  | nil =>
    intro _ x acc h1 h2 h1' r he hg
    simp only [goAnyOf, Prod.mk.injEq] at hg
    obtain ⟨rfl, rfl⟩ := hg
    exact ⟨h2, by simp [goAnyOf], he⟩
  | cons s rest ih =>
    intro hC x acc h1 h2 h1' r he hg
    simp only [goAnyOf] at hg
    rcases hr : validate s x h1 with ⟨ha, r1⟩
    rw [hr] at hg
    rcases hC s (by simp) x h1 h2 ha r1 he hr with ⟨hb, hr2, hab⟩
    cases r1 with
    | ok v =>
      simp only [Prod.mk.injEq] at hg
      obtain ⟨rfl, rfl⟩ := hg
      refine ⟨hb, ?_, hab⟩
      simp only [goAnyOf]
      rw [hr2]
    | verr e =>
      rcases ih (fun q hq => hC q (by simp [hq])) x (acc ++ [e]) ha hb h1' r hab hg with
        ⟨h2', hgoal, hfin⟩
      refine ⟨h2', ?_, hfin⟩
      simp only [goAnyOf]
      rw [hr2]
      exact hgoal
    | oerr t =>
      simp only [Prod.mk.injEq] at hg
      obtain ⟨rfl, rfl⟩ := hg
      refine ⟨hb, ?_, hab⟩
      simp only [goAnyOf]
      rw [hr2]

theorem goOneOf_congr :
    ∀ ss, (∀ s ∈ ss, CongrRun s) →
      ∀ x c res acc h1 h2 h1' r, HeapEquiv h1 h2 → goOneOf ss x c res acc h1 = (h1', r) →
        ∃ h2', goOneOf ss x c res acc h2 = (h2', r) ∧ HeapEquiv h1' h2' := by
  intro ss
  induction ss with
  | nil =>
    intro _ x c res acc h1 h2 h1' r he hg
    simp only [goOneOf] at hg
    by_cases hc : c = 0
    · rw [if_pos hc] at hg
      simp only [Prod.mk.injEq] at hg
      obtain ⟨rfl, rfl⟩ := hg
      exact ⟨h2, by simp [goOneOf, hc], he⟩
    · rw [if_neg hc] at hg
      simp only [Prod.mk.injEq] at hg
      obtain ⟨rfl, rfl⟩ := hg
      exact ⟨h2, by simp [goOneOf, hc], he⟩
  | cons s rest ih =>
    intro hC x c res acc h1 h2 h1' r he hg
    simp only [goOneOf] at hg
    rcases hr : validate s x h1 with ⟨ha, r1⟩
    rw [hr] at hg
    rcases hC s (by simp) x h1 h2 ha r1 he hr with ⟨hb, hr2, hab⟩
    cases r1 with
    | ok v =>
      simp only at hg
      by_cases hc : c + 1 > 1
      · rw [if_pos hc] at hg
        simp only [Prod.mk.injEq] at hg
        obtain ⟨rfl, rfl⟩ := hg
        refine ⟨hb, ?_, hab⟩
        simp only [goOneOf]
        rw [hr2]
        simp only [if_pos hc]
      · rw [if_neg hc] at hg
        rcases ih (fun q hq => hC q (by simp [hq])) x (c + 1) v acc ha hb h1' r hab hg with
          ⟨h2', hgoal, hfin⟩
        refine ⟨h2', ?_, hfin⟩
        simp only [goOneOf]
        rw [hr2]
        simp only [if_neg hc]
        exact hgoal
    | verr e =>
      rcases ih (fun q hq => hC q (by simp [hq])) x c res (acc ++ [e]) ha hb h1' r hab hg with
        ⟨h2', hgoal, hfin⟩
      refine ⟨h2', ?_, hfin⟩
      simp only [goOneOf]
      rw [hr2]
      exact hgoal
    | oerr t =>
      simp only [Prod.mk.injEq] at hg
      obtain ⟨rfl, rfl⟩ := hg
      refine ⟨hb, ?_, hab⟩
      simp only [goOneOf]
      rw [hr2]

/-- Every pure schema validates congruently across observationally
equivalent heaps. -/
theorem pureS_congr : ∀ S, PureS S → CongrRun S := by
  intro S hp
  induction hp with
  | lit p =>
    intro x h1 h2 h1' r he hv
    rw [validate_lit_eq] at hv
    simp only [Prod.mk.injEq] at hv
    obtain ⟨rfl, rfl⟩ := hv
    exact ⟨h2, validate_lit_eq p x h2, he⟩
  | vString pat =>
    intro x h1 h2 h1' r he hv
    rw [validate_vString_eq] at hv
    simp only [Prod.mk.injEq] at hv
    obtain ⟨rfl, rfl⟩ := hv
    exact ⟨h2, validate_vString_eq pat x h2, he⟩
  | vNumber =>
    intro x h1 h2 h1' r he hv
    rw [validate_vNumber_eq] at hv
    simp only [Prod.mk.injEq] at hv
    obtain ⟨rfl, rfl⟩ := hv
    exact ⟨h2, validate_vNumber_eq x h2, he⟩
  | vInteger =>
    intro x h1 h2 h1' r he hv
    rw [validate_vInteger_eq] at hv
    simp only [Prod.mk.injEq] at hv
    obtain ⟨rfl, rfl⟩ := hv
    exact ⟨h2, validate_vInteger_eq x h2, he⟩
  | vBoolean =>
    intro x h1 h2 h1' r he hv
    rw [validate_vBoolean_eq] at hv
    simp only [Prod.mk.injEq] at hv
    obtain ⟨rfl, rfl⟩ := hv
    exact ⟨h2, validate_vBoolean_eq x h2, he⟩
  | vAny =>
    intro x h1 h2 h1' r he hv
    rw [validate_vAny_eq] at hv
    simp only [Prod.mk.injEq] at hv
    obtain ⟨rfl, rfl⟩ := hv
    exact ⟨h2, validate_vAny_eq x h2, he⟩
  | vNever =>
    intro x h1 h2 h1' r he hv
    rw [validate_vNever_eq] at hv
    simp only [Prod.mk.injEq] at hv
    obtain ⟨rfl, rfl⟩ := hv
    exact ⟨h2, validate_vNever_eq x h2, he⟩
  | objS fs hf ih =>
    intro x h1 h2 h1' r he hv
    rw [validate.eq_def] at hv
    simp only at hv
    split at hv
    · rename_i id
      rcases goFields_congr fs (fun p hp' => pureS_run p.2 (hf p hp')) ih id h1 h2 h1' r he hv
        with ⟨h2', hgoal, hfin⟩
      exact ⟨h2', by simp only [validate]; exact hgoal, hfin⟩
    · rename_i hne
      simp only [Prod.mk.injEq] at hv
      obtain ⟨rfl, rfl⟩ := hv
      refine ⟨h2, ?_, he⟩
      exact validate_objS_not_obj fs x h2 (fun id hid => by exact hne id hid)
  | arrS es hes ih =>
    intro x h1 h2 h1' r he hv
    rw [validate.eq_def] at hv
    simp only at hv
    split at hv
    · rename_i id
      split at hv
      · rename_i hlen
        rcases goTuple_congr es (fun s hs' => pureS_run s (hes s hs')) ih 0 id h1 h2 h1' r he hv
          with ⟨h2', hgoal, hfin⟩
        refine ⟨h2', ?_, hfin⟩
        simp only [validate]
        rw [he.2 id] at hlen
        rw [if_pos hlen]
        exact hgoal
      · rename_i hlen
        simp only [Prod.mk.injEq] at hv
        obtain ⟨rfl, rfl⟩ := hv
        refine ⟨h2, ?_, he⟩
        simp only [validate]
        rw [he.2 id] at hlen
        rw [if_neg hlen]
    · rename_i hne
      simp only [Prod.mk.injEq] at hv
      obtain ⟨rfl, rfl⟩ := hv
      exact ⟨h2, validate_arrS_not_arr es x h2 (fun id hid => by exact hne id hid), he⟩
  | vArray s hs ih =>
    intro x h1 h2 h1' r he hv
    rw [validate.eq_def] at hv
    simp only at hv
    split at hv
    · rename_i id
      have hlen : getArr h2 id = getArr h1 id := (he.2 id).symm
      rcases goElems_congr (getArr h1 id).length s (pureS_run s hs) ih 0 id h1 h2 h1' r he hv
        with ⟨h2', hgoal, hfin⟩
      refine ⟨h2', ?_, hfin⟩
      simp only [validate]
      rw [hlen]
      exact hgoal
    · rename_i hne
      simp only [Prod.mk.injEq] at hv
      obtain ⟨rfl, rfl⟩ := hv
      exact ⟨h2, validate_vArray_not_arr s x h2 (fun id hid => by exact hne id hid), he⟩
  | vStruct s hs ih =>
    intro x h1 h2 h1' r he hv
    rw [validate.eq_def] at hv
    simp only at hv
    rcases ih x h1 h2 h1' r he hv with ⟨h2', hgoal, hfin⟩
    exact ⟨h2', by simp only [validate]; exact hgoal, hfin⟩
  | vAllOf ss hs ih =>
    intro x h1 h2 h1' r he hv
    simp only [validate] at hv
    rcases goAllOf_congr ss ih x h1 h2 h1' r he hv with ⟨h2', hgoal, hfin⟩
    exact ⟨h2', by simp only [validate]; exact hgoal, hfin⟩
  | vAnyOf ss hs ih =>
    intro x h1 h2 h1' r he hv
    simp only [validate] at hv
    rcases goAnyOf_congr ss ih x [] h1 h2 h1' r he hv with ⟨h2', hgoal, hfin⟩
    exact ⟨h2', by simp only [validate]; exact hgoal, hfin⟩
  | vOneOf ss hs ih =>
    intro x h1 h2 h1' r he hv
    simp only [validate] at hv
    rcases goOneOf_congr ss ih x 0 x [] h1 h2 h1' r he hv with ⟨h2', hgoal, hfin⟩
    exact ⟨h2', by simp only [validate]; exact hgoal, hfin⟩

/-! ## C4: purity of success and idempotence -/

/-- A doubling map function: `x => 2 * x` after a `number()` check. -/
def jsDouble : JSVal → VResult := fun v =>
  match v with
  | .prim (.num q) => .ok (.prim (.num (2 * q)))
  | _ => .verr (.custom [] "not a number")

/-- C4 counterexample: the claim quantifies over all schemas, including
validators built with `map`; but `map(number(), x => 2 * x)` accepts `1`
returning `2`, and validating that output again returns `4`, not `2` — so
`validate(validate(v,S),S) = validate(v,S)` fails. -/
theorem validate_idempotent_counterexample :
    ¬ (∀ S x h h' v, validate S x h = (h', .ok v) →
        ∃ h'', validate S v h' = (h'', .ok v)) := by
  intro hclaim
  have h1 : validate (.vMap .vNumber jsDouble) (.prim (.num 1)) emptyHeap
      = (emptyHeap, .ok (.prim (.num 2))) := by
    simp [validate, jsDouble]
  rcases hclaim (.vMap .vNumber jsDouble) (.prim (.num 1)) emptyHeap emptyHeap
    (.prim (.num 2)) h1 with ⟨h'', hcontra⟩
  have h2 : validate (.vMap .vNumber jsDouble) (.prim (.num 2)) emptyHeap
      = (emptyHeap, .ok (.prim (.num 4))) := by
    simp [validate, jsDouble]
    norm_num
  rw [h2] at hcontra
  simp only [Prod.mk.injEq, VResult.ok.injEq, JSVal.prim.injEq, Prim.num.injEq] at hcontra
  norm_num at hcontra

/-- C4 (amended): restricted to pure schemas — literals, scalar validators,
object/array shapes, `array`, `struct` and the logical combinators, i.e.
excluding the transforming/allocating validators `map`/`filter`, `record`,
`maybe` and foreign validator functions, which the counterexample rules out —
an accepted value is returned unchanged (so a successful `validate` does not
raise), and validation is idempotent on its own output: re-validating the
result in the post-validation heap succeeds with the identical value (and an
observationally identical heap). -/
theorem validate_idempotent_pureS :
    ∀ S x h h' v, PureS S → validate S x h = (h', .ok v) →
      v = x ∧ ∃ h'', validate S v h' = (h'', .ok v) ∧ HeapEquiv h'' h' := by
  intro S x h h' v hp hv
  have hrun := pureS_run S hp x h h' (.ok v) hv
  have hvx : v = x := hrun.2 v rfl
  subst hvx
  have hequiv : HeapEquiv h h' := hrun.1.1.symm
  rcases pureS_congr S hp v h h' h' (.ok v) hequiv hv with ⟨h'', heq, he2⟩
  exact ⟨rfl, h'', heq, he2.symm⟩

theorem validate_idempotent_pureS_witness :
    (JSVal.obj 0 = JSVal.obj 0)
  ∧ ∃ h'', validate (.objS [("a", .vNumber)]) (.obj 0) recHeap = (h'', .ok (.obj 0))
      ∧ HeapEquiv h'' recHeap := by
  exact validate_idempotent_pureS (.objS [("a", .vNumber)]) (.obj 0) recHeap recHeap
    (.obj 0)
    (PureS.objS _ (by
      intro p hp
      simp only [List.mem_singleton] at hp
      subst hp
      exact PureS.vNumber))
    (by simp [validate, goFields, recHeap, getField, getObjFields, assocFind, setField,
      assocSet, setFieldList])

/-! ## C5: reference identity; record allocates fresh -/

/-- An object id with a heap entry. -/
def objLive (h : Heap) (id : Nat) : Prop := (assocFind h.objs id).isSome

theorem assocFind_isSome_iff_mem {κ α : Type} [DecidableEq κ] :
    ∀ (l : List (κ × α)) (k : κ), (assocFind l k).isSome ↔ k ∈ l.map Prod.fst := by
  intro l
  induction l with
  | nil => intro k; simp [assocFind]
  | cons p rest ih =>
    intro k
    rcases p with ⟨k', v'⟩
    simp only [assocFind, List.map_cons, List.mem_cons]
    by_cases hk : k' = k
    · rw [if_pos hk]
      simp [hk.symm]
    · rw [if_neg hk]
      rw [ih k]
      constructor
      · intro hm; exact Or.inr hm
      · intro hm
        rcases hm with hm | hm
        · exact absurd hm.symm hk
        · exact hm

theorem objLive_of_heapSame {h' h : Heap} (hs : HeapSame h' h) {i : Nat}
    (hl : objLive h i) : objLive h' i := by
  unfold objLive at hl ⊢
  rw [assocFind_isSome_iff_mem] at hl ⊢
  rw [hs.2.1]
  exact hl

theorem objLive_setField (h : Heap) (j : Nat) (k : String) (v : JSVal) {i : Nat}
    (hl : objLive h i) : objLive (setField h j k v) i := by
  unfold objLive at hl ⊢
  rw [assocFind_isSome_iff_mem] at hl ⊢
  rw [(setField_shape h j k v).1]
  exact hl

theorem getField_allocObj (h : Heap) (i : Nat) (k : String) (hi : i ≠ h.next) :
    getField (allocObj h).1 i k = getField h i k := by
  unfold getField getObjFields allocObj
  simp only
  rcases hf : assocFind h.objs i with _ | fs
  · rw [assocFind_append_of_none h.objs _ i hf]
    simp only [assocFind]
    rw [if_neg (fun hc => hi hc.symm)]
    simp [assocFind]
  · rw [assocFind_append_of_some h.objs _ i fs hf]

theorem getField_allocObj_fresh (h : Heap) (k : String)
    (hwf : assocFind h.objs h.next = none) :
    getField (allocObj h).1 h.next k = .prim .undef := by
  unfold getField getObjFields allocObj
  simp only
  rw [assocFind_append_of_none h.objs _ h.next hwf]
  simp [assocFind]

theorem objLive_allocObj (h : Heap) : objLive (allocObj h).1 h.next := by
  unfold objLive allocObj
  simp only
  rcases hf : assocFind h.objs h.next with _ | fs
  · rw [assocFind_append_of_none h.objs _ h.next hf]
    simp [assocFind]
  · rw [assocFind_append_of_some h.objs _ h.next fs hf]
    rfl

/-- Pure `record` loop: the input object's reads survive, the fresh object's
fields copy the input's (at the processed keys), untouched keys of the fresh
object keep their reads, and the fresh object stays live. -/
theorem goRecord_pure_copy :
    ∀ (keys : List String) (ks vs : SchemaV) (xid yid : Nat) (h h' : Heap) (v : JSVal),
      PureS ks → PureS vs → xid ≠ yid → objLive h yid → keys.Nodup →
      goRecord ks vs keys xid yid h = (h', .ok v) →
      (∀ k', getField h' xid k' = getField h xid k') ∧
      (∀ k ∈ keys, getField h' yid k = getField h xid k) ∧
      (∀ k', k' ∉ keys → getField h' yid k' = getField h yid k') ∧
      objLive h' yid := by
  intro keys
  induction keys with
  | nil =>
    intro ks vs xid yid h h' v _ _ _ hlive _ hg
    simp only [goRecord, Prod.mk.injEq] at hg
    obtain ⟨rfl, _⟩ := hg
    exact ⟨fun _ => rfl, fun k hk => absurd hk (List.not_mem_nil k), fun _ _ => rfl, hlive⟩
  | cons k rest ih =>
    intro ks vs xid yid h h' v hks hvs hxy hlive hnd hg
    simp only [goRecord] at hg
    rcases hr : validate vs (getField h xid k) h with ⟨h1, r1⟩
    rw [hr] at hg
    cases r1 with
    | ok w =>
      simp only at hg
      rcases hr2 : validate ks (.prim (.str k)) h1 with ⟨h2, r2⟩
      rw [hr2] at hg
      cases r2 with
      | ok kv =>
        simp only at hg
        have hrun1 := pureS_run vs hvs (getField h xid k) h h1 (.ok w) hr
        have hw : w = getField h xid k := hrun1.2 w rfl
        have hrun2 := pureS_run ks hks (.prim (.str k)) h1 h2 (.ok kv) hr2
        have hkv : kv = .prim (.str k) := hrun2.2 kv rfl
        have hsame2 : HeapSame h2 h := HeapSame.same_trans hrun2.1 hrun1.1
        have hlive2 : objLive h2 yid := objLive_of_heapSame hsame2 hlive
        have hpk : propKey kv = k := by rw [hkv]; rfl
        rw [hpk] at hg
        set h3 := setField h2 yid k w with hh3
        have hlive3 : objLive h3 yid := objLive_setField h2 yid k w hlive2
        have hnd2 : rest.Nodup := (List.nodup_cons.mp hnd).2
        have hknr : k ∉ rest := (List.nodup_cons.mp hnd).1
        rcases ih ks vs xid yid h3 h' v hks hvs hxy hlive3 hnd2 hg with
          ⟨hxreads, hcopied, hkept, hlive'⟩
        have hx3 : ∀ k', getField h3 xid k' = getField h xid k' := by
          intro k'
          rw [hh3, getField_setField_ne h2 yid k w xid k' hxy]
          exact hsame2.1.1 xid k'
        have hy3 : ∀ k', k' ≠ k → getField h3 yid k' = getField h yid k' := by
          intro k' hkk
          rw [hh3, getField_setField_other h2 yid k k' w hkk]
          exact hsame2.1.1 yid k'
        have hy3k : getField h3 yid k = getField h xid k := by
          rw [hh3, getField_setField_self h2 yid k w hlive2, hw]
        refine ⟨?_, ?_, ?_, hlive'⟩
        · intro k'
          rw [hxreads k', hx3 k']
        · intro k2 hk2
          rcases List.mem_cons.mp hk2 with hk2 | hk2
          · subst hk2
            rw [hkept k2 hknr, hy3k]
          · rw [hcopied k2 hk2, hx3 k2]
        · intro k' hk'
          have hk'k : k' ≠ k := fun hc => hk' (by rw [hc]; exact List.mem_cons_self k rest)
          have hk'r : k' ∉ rest := fun hc => hk' (List.mem_cons_of_mem k hc)
          rw [hkept k' hk'r, hy3 k' hk'k]
      | verr e => simp at hg
      | oerr t => simp at hg
    | verr e => simp at hg
    | oerr t => simp at hg

theorem litRes_ok {p : Prim} {x v : JSVal} (hv : litRes p x = .ok v) : v = x := by
  unfold litRes at hv
  split at hv
  · cases hv; rfl
  · exact nomatch hv

theorem stringRes_ok {pat : Option StrPat} {x v : JSVal} (hv : stringRes pat x = .ok v) :
    v = x := by
  unfold stringRes at hv
  split at hv
  · split at hv
    · cases hv; rfl
    · split at hv
      · cases hv; rfl
      · exact nomatch hv
  · split at hv
    · exact nomatch hv
    · exact nomatch hv

theorem numberRes_ok {x v : JSVal} (hv : numberRes x = .ok v) : v = x := by
  unfold numberRes at hv
  split at hv
  · cases hv; rfl
  · exact nomatch hv

theorem integerRes_ok {x v : JSVal} (hv : integerRes x = .ok v) : v = x := by
  unfold integerRes at hv
  split at hv
  · split at hv
    · cases hv; rfl
    · exact nomatch hv
  · exact nomatch hv

theorem booleanRes_ok {x v : JSVal} (hv : booleanRes x = .ok v) : v = x := by
  unfold booleanRes at hv
  split at hv
  · cases hv; rfl
  · exact nomatch hv

/-- The cyclic input `{a: <itself>}` at object 0. -/
def cycHeap : Heap := ⟨[(0, [("a", .obj 0)])], [], 1⟩

/-- A value schema `{a: map(any(), () => 5)}` that transforms the nested
field in place. -/
def cycValueSchema : SchemaV := .objS [("a", .vMap .vAny (fun _ => .ok (.prim (.num 5))))]

/-- C5 counterexample to the "record never mutates the input object" clause:
on a cyclic input `x = {a: x}`, `record(string(), {a: map(any(), () => 5)})`
succeeds with a fresh object, but the nested value validation that `record`
itself invoked has overwritten the input object's own field `a` with `5`. -/
theorem record_mutates_cyclic_input :
    (validate (.vRecord (.vString none) cycValueSchema) (.obj 0) cycHeap).2
        = .ok (.obj 1)
  ∧ getField (validate (.vRecord (.vString none) cycValueSchema) (.obj 0) cycHeap).1 0 "a"
        = .prim (.num 5)
  ∧ getField cycHeap 0 "a" = .obj 0 := by
  refine ⟨?_, ?_, ?_⟩
  · simp [validate, goRecord, goFields, cycHeap, cycValueSchema, allocObj, getField,
      getObjFields, assocFind, setField, assocSet, setFieldList, propKey]
  · simp [validate, goRecord, goFields, cycHeap, cycValueSchema, allocObj, getField,
      getObjFields, assocFind, setField, assocSet, setFieldList, propKey]
  · simp [cycHeap, getField, getObjFields, assocFind]

/-- C5 (amended): for object-shaped, array-shaped, literal and scalar-
validator schemas (and the `array` combinator), a successful `validate`
returns the very same reference as its input.  `record` is the exception:
it always allocates and returns a fresh container — the reference of the
next free id, distinct from every live object of a well-formed heap — and
its own writes go only to that fresh container; when the key and value
schemas are pure, the input object's reads are unchanged and the fresh
container's per-field reads are the validated (here: original) field values.
(As the counterexample shows, a transforming nested value schema can still
mutate objects reachable from the input — the cyclic case reaches the input
itself — so the original "never mutating the input object" is too strong.) -/
theorem reference_identity_and_record_fresh :
    (∀ fs x h h' v, validate (.objS fs) x h = (h', .ok v) → v = x)
  ∧ (∀ es x h h' v, validate (.arrS es) x h = (h', .ok v) → v = x)
  ∧ (∀ s x h h' v, validate (.vArray s) x h = (h', .ok v) → v = x)
  ∧ (∀ p x h h' v, validate (.lit p) x h = (h', .ok v) → v = x)
  ∧ (∀ pat x h h' v, validate (.vString pat) x h = (h', .ok v) → v = x)
  ∧ (∀ x h h' v, validate .vNumber x h = (h', .ok v) → v = x)
  ∧ (∀ x h h' v, validate .vInteger x h = (h', .ok v) → v = x)
  ∧ (∀ x h h' v, validate .vBoolean x h = (h', .ok v) → v = x)
  ∧ (∀ ks vs x h h' v, validate (.vRecord ks vs) x h = (h', .ok v) →
      v = .obj h.next ∧ ((∀ i, objLive h i → i < h.next) → ∀ i, objLive h i → v ≠ .obj i))
  ∧ (∀ ks vs id h h' v, PureS ks → PureS vs →
      (∀ i, objLive h i → i < h.next) → objLive h id →
      ((getObjFields h id).map Prod.fst).Nodup →
      validate (.vRecord ks vs) (.obj id) h = (h', .ok v) →
      (∀ k, getField h' id k = getField h id k) ∧
      (∀ k ∈ (getObjFields h id).map Prod.fst, getField h' h.next k = getField h id k)) := by
  refine ⟨?_, ?_, ?_, ?_, ?_, ?_, ?_, ?_, ?_, ?_⟩
  · intro fs x h h' v hv
    rw [validate.eq_def] at hv
    simp only at hv
    split at hv
    · exact goFields_ok_val fs _ h h' v hv
    · simp at hv
  · intro es x h h' v hv
    rw [validate.eq_def] at hv
    simp only at hv
    split at hv
    · split at hv
      · exact goTuple_ok_val es 0 _ h h' v hv
      · simp at hv
    · simp at hv
  · intro s x h h' v hv
    rw [validate.eq_def] at hv
    simp only at hv
    split at hv
    · exact goElems_ok_val _ s 0 _ h h' v hv
    · simp at hv
  · intro p x h h' v hv
    rw [validate_lit_eq] at hv
    simp only [Prod.mk.injEq] at hv
    exact litRes_ok hv.2
  · intro pat x h h' v hv
    rw [validate_vString_eq] at hv
    simp only [Prod.mk.injEq] at hv
    exact stringRes_ok hv.2
  · intro x h h' v hv
    rw [validate_vNumber_eq] at hv
    simp only [Prod.mk.injEq] at hv
    exact numberRes_ok hv.2
  · intro x h h' v hv
    rw [validate_vInteger_eq] at hv
    simp only [Prod.mk.injEq] at hv
    exact integerRes_ok hv.2
  · intro x h h' v hv
    rw [validate_vBoolean_eq] at hv
    simp only [Prod.mk.injEq] at hv
    exact booleanRes_ok hv.2
  · intro ks vs x h h' v hv
    rw [validate.eq_def] at hv
    simp only at hv
    split at hv
    · have hval := goRecord_ok_val _ ks vs _ _ _ h' v hv
      refine ⟨hval, fun hwf i hlive hcon => ?_⟩
      rw [hval] at hcon
      have hni : (allocObj h).2 = i := by injection hcon
      have hnn : (allocObj h).2 = h.next := rfl
      have hlt := hwf i hlive
      omega
    · simp at hv
  · intro ks vs id h h' v hks hvs hwf hlive hnd hv
    rw [validate.eq_def] at hv
    simp only at hv
    have hne : id ≠ h.next := by
      intro hc
      have := hwf id hlive
      omega
    have hliveY : objLive (allocObj h).1 (allocObj h).2 := objLive_allocObj h
    rcases goRecord_pure_copy ((getObjFields h id).map Prod.fst) ks vs id (allocObj h).2
      (allocObj h).1 h' v hks hvs hne hliveY hnd hv with ⟨hx, hy, _, _⟩
    constructor
    · intro k
      rw [hx k, getField_allocObj h id k hne]
    · intro k hk
      have hgoal : getField h' (allocObj h).2 k = getField h id k := by
        rw [hy k hk, getField_allocObj h id k hne]
      exact hgoal

/-- Final heap of `record(string(), number())` on `{a: 1}`: the input object 0
untouched, the fresh object 1 carrying the copied field. -/
def recFinalHeap : Heap :=
  ⟨[(0, [("a", .prim (.num 1))]), (1, [("a", .prim (.num 1))])], [], 2⟩

theorem reference_identity_and_record_fresh_witness :
    (JSVal.obj 0 = JSVal.obj 0)
  ∧ ((JSVal.obj 1 : JSVal) = .obj recHeap.next)
  ∧ (∀ k, getField recFinalHeap 0 k = getField recHeap 0 k)
  ∧ (∀ k ∈ (getObjFields recHeap 0).map Prod.fst,
      getField recFinalHeap 1 k = getField recHeap 0 k) := by
  have hrun : validate (.vRecord (.vString none) .vNumber) (.obj 0) recHeap
      = (recFinalHeap, .ok (.obj 1)) := by
    simp [validate, goRecord, recHeap, recFinalHeap, allocObj, getField, getObjFields,
      assocFind, setField, assocSet, setFieldList, propKey]
  have hwf : ∀ i, objLive recHeap i → i < recHeap.next := by
    intro i hi
    by_cases h0 : (0 : Nat) = i
    · simp [recHeap]
      omega
    · simp [objLive, recHeap, assocFind, h0] at hi
  have hlive : objLive recHeap 0 := by simp [objLive, recHeap, assocFind]
  have hnd : ((getObjFields recHeap 0).map Prod.fst).Nodup := by
    simp [recHeap, getObjFields, assocFind]
  have h10 := reference_identity_and_record_fresh.2.2.2.2.2.2.2.2.2 (.vString none)
    .vNumber 0 recHeap recFinalHeap (.obj 1) (PureS.vString none) PureS.vNumber hwf hlive
    hnd hrun
  refine ⟨?_, ?_, h10.1, h10.2⟩
  · exact reference_identity_and_record_fresh.1 [("a", .vNumber)] (.obj 0) recHeap recHeap
      (.obj 0)
      (by simp [validate, goFields, recHeap, getField, getObjFields, assocFind, setField,
        assocSet, setFieldList])
  · exact (reference_identity_and_record_fresh.2.2.2.2.2.2.2.2.1 (.vString none) .vNumber
      (.obj 0) recHeap recFinalHeap (.obj 1) hrun).1
